import Mathlib

/-!
Verification development for the heap-backed, reference-counted string
representation `ArcString` (file `src/repr/heap/arc.rs`).

The model is a shallow embedding: heap memory is a list of optional blocks
(`none` = deallocated), a block is `ArcStringInner` (reference count,
capacity, byte buffer), and a handle is `ArcString` (length + block index).
Bytes are natural numbers; a Rust `&str` value is represented by the UTF-8
encoding of its list of characters.
-/

namespace ArcModel

/-! ## UTF-8 encoding and decoding

`utf8Len` mirrors Rust's `char::len_utf8`, `utf8EncodeChar` mirrors
`char::encode_utf8` (bit operations written with division/modulus on `Nat`),
and `utf8Decode` is a strict UTF-8 validator/decoder (rejects continuation
errors, overlong forms, surrogates and out-of-range code points), matching
what `str` guarantees about its bytes. -/

def utf8Len (c : Char) : Nat :=
  if c.toNat < 0x80 then 1
  else if c.toNat < 0x800 then 2
  else if c.toNat < 0x10000 then 3
  else 4

def utf8EncodeChar (c : Char) : List Nat :=
  if c.toNat < 0x80 then [c.toNat]
  else if c.toNat < 0x800 then [0xC0 + c.toNat / 64, 0x80 + c.toNat % 64]
  else if c.toNat < 0x10000 then
    [0xE0 + c.toNat / 4096, 0x80 + c.toNat / 64 % 64, 0x80 + c.toNat % 64]
  else
    [0xF0 + c.toNat / 262144, 0x80 + c.toNat / 4096 % 64, 0x80 + c.toNat / 64 % 64,
      0x80 + c.toNat % 64]

def utf8Encode : List Char → List Nat
  | [] => []
  | c :: cs => utf8EncodeChar c ++ utf8Encode cs

mutual

def utf8Decode : List Nat → Option (List Char)
  | [] => some []
  | b0 :: rest =>
    if b0 < 0x80 then (utf8Decode rest).map (fun cs => Char.ofNat b0 :: cs)
    else if 0xC0 ≤ b0 ∧ b0 < 0xE0 then utf8DecodeTwo b0 rest
    else if 0xE0 ≤ b0 ∧ b0 < 0xF0 then utf8DecodeThree b0 rest
    else if 0xF0 ≤ b0 ∧ b0 < 0xF5 then utf8DecodeFour b0 rest
    else none
  termination_by l => l.length

def utf8DecodeTwo (b0 : Nat) : List Nat → Option (List Char)
  | b1 :: rest2 =>
    if (0x80 ≤ b1 ∧ b1 < 0xC0) ∧ 0x80 ≤ (b0 - 0xC0) * 64 + (b1 - 0x80) then
      (utf8Decode rest2).map (fun cs => Char.ofNat ((b0 - 0xC0) * 64 + (b1 - 0x80)) :: cs)
    else none
  | [] => none
  termination_by l => l.length

def utf8DecodeThree (b0 : Nat) : List Nat → Option (List Char)
  | b1 :: b2 :: rest2 =>
    if (0x80 ≤ b1 ∧ b1 < 0xC0) ∧ (0x80 ≤ b2 ∧ b2 < 0xC0) ∧
        0x800 ≤ (b0 - 0xE0) * 4096 + (b1 - 0x80) * 64 + (b2 - 0x80) ∧
        ¬(0xD800 ≤ (b0 - 0xE0) * 4096 + (b1 - 0x80) * 64 + (b2 - 0x80) ∧
          (b0 - 0xE0) * 4096 + (b1 - 0x80) * 64 + (b2 - 0x80) < 0xE000) then
      (utf8Decode rest2).map
        (fun cs => Char.ofNat ((b0 - 0xE0) * 4096 + (b1 - 0x80) * 64 + (b2 - 0x80)) :: cs)
    else none
  | _ => none
  termination_by l => l.length

def utf8DecodeFour (b0 : Nat) : List Nat → Option (List Char)
  | b1 :: b2 :: b3 :: rest2 =>
    if (0x80 ≤ b1 ∧ b1 < 0xC0) ∧ (0x80 ≤ b2 ∧ b2 < 0xC0) ∧ (0x80 ≤ b3 ∧ b3 < 0xC0) ∧
        0x10000 ≤ (b0 - 0xF0) * 262144 + (b1 - 0x80) * 4096 + (b2 - 0x80) * 64 + (b3 - 0x80) ∧
        (b0 - 0xF0) * 262144 + (b1 - 0x80) * 4096 + (b2 - 0x80) * 64 + (b3 - 0x80) < 0x110000 then
      (utf8Decode rest2).map
        (fun cs =>
          Char.ofNat
            ((b0 - 0xF0) * 262144 + (b1 - 0x80) * 4096 + (b2 - 0x80) * 64 + (b3 - 0x80)) :: cs)
    else none
  | _ => none
  termination_by l => l.length

end

theorem char_toNat_valid (c : Char) :
    c.toNat < 0xD800 ∨ (0xDFFF < c.toNat ∧ c.toNat < 0x110000) := c.valid

theorem utf8Len_pos (c : Char) : 1 ≤ utf8Len c := by
  unfold utf8Len; split_ifs <;> omega

theorem length_utf8EncodeChar (c : Char) : (utf8EncodeChar c).length = utf8Len c := by
  unfold utf8EncodeChar utf8Len
  split_ifs <;> rfl

theorem utf8Encode_append (s t : List Char) :
    utf8Encode (s ++ t) = utf8Encode s ++ utf8Encode t := by
  induction s with
  | nil => rfl
  | cons c cs ih =>
    show utf8EncodeChar c ++ utf8Encode (cs ++ t) = (utf8EncodeChar c ++ utf8Encode cs) ++ _
    rw [ih, List.append_assoc]

theorem utf8Decode_encodeChar_append (c : Char) (rest : List Nat) :
    utf8Decode (utf8EncodeChar c ++ rest) = (utf8Decode rest).map (fun cs => c :: cs) := by
  have hvalid := char_toNat_valid c
  have hof := Char.ofNat_toNat c
  by_cases h1 : c.toNat < 0x80
  · have henc : utf8EncodeChar c = [c.toNat] := by
      unfold utf8EncodeChar; rw [if_pos h1]
    rw [henc]
    show utf8Decode (c.toNat :: rest) = _
    rw [utf8Decode, if_pos h1, hof]
  · by_cases h2 : c.toNat < 0x800
    · have henc : utf8EncodeChar c = [0xC0 + c.toNat / 64, 0x80 + c.toNat % 64] := by
        unfold utf8EncodeChar; rw [if_neg h1, if_pos h2]
      rw [henc]
      show utf8Decode ((0xC0 + c.toNat / 64) :: (0x80 + c.toNat % 64) :: rest) = _
      rw [utf8Decode,
        if_neg (by omega : ¬ 0xC0 + c.toNat / 64 < 0x80),
        if_pos (by omega : 0xC0 ≤ 0xC0 + c.toNat / 64 ∧ 0xC0 + c.toNat / 64 < 0xE0),
        utf8DecodeTwo,
        if_pos (by omega :
          (0x80 ≤ 0x80 + c.toNat % 64 ∧ 0x80 + c.toNat % 64 < 0xC0) ∧
          0x80 ≤ (0xC0 + c.toNat / 64 - 0xC0) * 64 + (0x80 + c.toNat % 64 - 0x80))]
      have hn : (0xC0 + c.toNat / 64 - 0xC0) * 64 + (0x80 + c.toNat % 64 - 0x80) = c.toNat := by
        omega
      rw [hn, hof]
    · by_cases h3 : c.toNat < 0x10000
      · have henc : utf8EncodeChar c =
            [0xE0 + c.toNat / 4096, 0x80 + c.toNat / 64 % 64, 0x80 + c.toNat % 64] := by
          unfold utf8EncodeChar; rw [if_neg h1, if_neg h2, if_pos h3]
        rw [henc]
        show utf8Decode
          ((0xE0 + c.toNat / 4096) :: (0x80 + c.toNat / 64 % 64) ::
            (0x80 + c.toNat % 64) :: rest) = _
        have hguard : (0x80 ≤ 0x80 + c.toNat / 64 % 64 ∧ 0x80 + c.toNat / 64 % 64 < 0xC0) ∧
            (0x80 ≤ 0x80 + c.toNat % 64 ∧ 0x80 + c.toNat % 64 < 0xC0) ∧
            0x800 ≤ (0xE0 + c.toNat / 4096 - 0xE0) * 4096 +
              (0x80 + c.toNat / 64 % 64 - 0x80) * 64 + (0x80 + c.toNat % 64 - 0x80) ∧
            ¬(0xD800 ≤ (0xE0 + c.toNat / 4096 - 0xE0) * 4096 +
                (0x80 + c.toNat / 64 % 64 - 0x80) * 64 + (0x80 + c.toNat % 64 - 0x80) ∧
              (0xE0 + c.toNat / 4096 - 0xE0) * 4096 +
                (0x80 + c.toNat / 64 % 64 - 0x80) * 64 + (0x80 + c.toNat % 64 - 0x80) < 0xE000) := by
          omega
        rw [utf8Decode,
          if_neg (by omega : ¬ 0xE0 + c.toNat / 4096 < 0x80),
          if_neg (by omega : ¬(0xC0 ≤ 0xE0 + c.toNat / 4096 ∧ 0xE0 + c.toNat / 4096 < 0xE0)),
          if_pos (by omega : 0xE0 ≤ 0xE0 + c.toNat / 4096 ∧ 0xE0 + c.toNat / 4096 < 0xF0),
          utf8DecodeThree, if_pos hguard]
        have hn : (0xE0 + c.toNat / 4096 - 0xE0) * 4096 + (0x80 + c.toNat / 64 % 64 - 0x80) * 64 +
            (0x80 + c.toNat % 64 - 0x80) = c.toNat := by omega
        rw [hn, hof]
      · have henc : utf8EncodeChar c =
            [0xF0 + c.toNat / 262144, 0x80 + c.toNat / 4096 % 64, 0x80 + c.toNat / 64 % 64,
              0x80 + c.toNat % 64] := by
          unfold utf8EncodeChar; rw [if_neg h1, if_neg h2, if_neg h3]
        rw [henc]
        show utf8Decode ((0xF0 + c.toNat / 262144) :: (0x80 + c.toNat / 4096 % 64) ::
          (0x80 + c.toNat / 64 % 64) :: (0x80 + c.toNat % 64) :: rest) = _
        have hguard : (0x80 ≤ 0x80 + c.toNat / 4096 % 64 ∧ 0x80 + c.toNat / 4096 % 64 < 0xC0) ∧
            (0x80 ≤ 0x80 + c.toNat / 64 % 64 ∧ 0x80 + c.toNat / 64 % 64 < 0xC0) ∧
            (0x80 ≤ 0x80 + c.toNat % 64 ∧ 0x80 + c.toNat % 64 < 0xC0) ∧
            0x10000 ≤ (0xF0 + c.toNat / 262144 - 0xF0) * 262144 +
              (0x80 + c.toNat / 4096 % 64 - 0x80) * 4096 +
              (0x80 + c.toNat / 64 % 64 - 0x80) * 64 + (0x80 + c.toNat % 64 - 0x80) ∧
            (0xF0 + c.toNat / 262144 - 0xF0) * 262144 +
              (0x80 + c.toNat / 4096 % 64 - 0x80) * 4096 +
              (0x80 + c.toNat / 64 % 64 - 0x80) * 64 + (0x80 + c.toNat % 64 - 0x80) < 0x110000 := by
          omega
        rw [utf8Decode,
          if_neg (by omega : ¬ 0xF0 + c.toNat / 262144 < 0x80),
          if_neg (by omega : ¬(0xC0 ≤ 0xF0 + c.toNat / 262144 ∧ 0xF0 + c.toNat / 262144 < 0xE0)),
          if_neg (by omega : ¬(0xE0 ≤ 0xF0 + c.toNat / 262144 ∧ 0xF0 + c.toNat / 262144 < 0xF0)),
          if_pos (by omega : 0xF0 ≤ 0xF0 + c.toNat / 262144 ∧ 0xF0 + c.toNat / 262144 < 0xF5),
          utf8DecodeFour, if_pos hguard]
        have hn : (0xF0 + c.toNat / 262144 - 0xF0) * 262144 +
            (0x80 + c.toNat / 4096 % 64 - 0x80) * 4096 +
            (0x80 + c.toNat / 64 % 64 - 0x80) * 64 + (0x80 + c.toNat % 64 - 0x80) = c.toNat := by
          omega
        rw [hn, hof]

theorem utf8Decode_encode (s : List Char) : utf8Decode (utf8Encode s) = some s := by
  induction s with
  | nil =>
    show utf8Decode [] = some []
    rw [utf8Decode]
  | cons c cs ih =>
    show utf8Decode (utf8EncodeChar c ++ utf8Encode cs) = _
    rw [utf8Decode_encodeChar_append, ih]
    rfl

/-! ## The heap model

A `Heap` is the allocator's memory: a list of blocks indexed by allocation
order, where `none` marks a deallocated block.  `ArcStringInner` embeds the
`#[repr(C)]` struct of the same name: the atomic `ref_count` (a plain `Nat`
here — the model interleaves whole operations, so the atomic RMW sequences
of the source appear as their net sequential effect), the `capacity` field,
and the inline `str_buffer`, which the source manages as a raw region of
exactly `capacity` bytes following the header. -/

structure ArcStringInner where
  ref_count : Nat
  capacity : Nat
  str_buffer : List Nat
deriving DecidableEq

structure Heap where
  blocks : List (Option ArcStringInner)
deriving DecidableEq

def Heap.get (h : Heap) (i : Nat) : Option ArcStringInner :=
  (h.blocks.getD i none)

def Heap.set (h : Heap) (i : Nat) (b : Option ArcStringInner) : Heap :=
  ⟨h.blocks.set i b⟩

/-- Allocation: the fresh block id is the current number of blocks. -/
def Heap.alloc (h : Heap) (b : ArcStringInner) : Nat × Heap :=
  (h.blocks.length, ⟨h.blocks ++ [some b]⟩)

/-- Total accessor used where the source dereferences `self.ptr`; the dummy
block is never reached from a well-formed handle. -/
def Heap.getBlock (h : Heap) (i : Nat) : ArcStringInner :=
  (h.get i).getD ⟨0, 0, []⟩

/-- `ArcStringInner::with_capacity`: `ref_count = 1`, `capacity = capacity`,
an uninitialized buffer of `capacity` bytes (uninitialized bytes are
modelled as zeros; no operation ever reads them as committed content). -/
def ArcStringInner.withCapacity (capacity : Nat) : ArcStringInner :=
  ⟨1, capacity, List.replicate capacity 0⟩

/-- `ArcStringInner::as_bytes`: the full `capacity`-byte region.  The model
keeps `str_buffer.length = capacity` as an invariant, so the buffer itself
is the region. -/
def ArcStringInner.as_bytes (b : ArcStringInner) : List Nat :=
  b.str_buffer

/-- A memcpy of `src` into `dst` at byte offset `off`
(`copy_from_nonoverlapping` / `copy_from_slice`). -/
def copyInto (dst : List Nat) (off : Nat) (src : List Nat) : List Nat :=
  dst.take off ++ src ++ dst.drop (off + src.length)

/-- The two-word `ArcString` handle: logical length plus the block pointer
(index into the heap). -/
structure ArcString where
  len : Nat
  ptr : Nat
deriving DecidableEq

instance : Inhabited ArcString := ⟨⟨0, 0⟩⟩

namespace ArcString

/-- `ArcString::new(text, additional)`: allocate a block of capacity
`text.len() + additional` and copy `text`'s bytes to the start of the
buffer.  `text` is the byte content of the argument `&str`. -/
def new (text : List Nat) (additional : Nat) (h : Heap) : ArcString × Heap :=
  let len := text.length
  let capacity := len + additional
  let inner := ArcStringInner.withCapacity capacity
  let inner := { inner with str_buffer := copyInto inner.str_buffer 0 text }
  let (id, h1) := h.alloc inner
  (⟨len, id⟩, h1)

def capacity (a : ArcString) (h : Heap) : Nat :=
  (h.getBlock a.ptr).capacity

/-- `ArcString::as_slice`: the first `len` bytes of the block's buffer. -/
def as_slice (a : ArcString) (h : Heap) : List Nat :=
  ((h.getBlock a.ptr).as_bytes).take a.len

/-- `ArcString::as_str` (`from_utf8_unchecked`): on the committed range,
which is always valid UTF-8, this is exact decoding; the `[]` default is
the junk value of the unreachable invalid case. -/
def as_str (a : ArcString) (h : Heap) : List Char :=
  (utf8Decode (a.as_slice h)).getD []

/-- `Drop for ArcString`: `fetch_sub(1, Release)`; if the previous count was
not 1 other handles remain and only the decrement is visible, otherwise the
fence is executed and the block deallocated. -/
def drop (a : ArcString) (h : Heap) : Heap :=
  match h.get a.ptr with
  | none => h
  | some blk =>
    if blk.ref_count ≠ 1 then
      h.set a.ptr (some { blk with ref_count := blk.ref_count - 1 })
    else
      h.set a.ptr none

/-- `Clone for ArcString`: `fetch_add(1, Relaxed)` on the count, same `len`
and same pointer.  (The `MAX_REFCOUNT` overflow abort cannot trigger on
`Nat` counts and is not modelled.) -/
def clone (a : ArcString) (h : Heap) : ArcString × Heap :=
  let blk := h.getBlock a.ptr
  (⟨a.len, a.ptr⟩, h.set a.ptr (some { blk with ref_count := blk.ref_count + 1 }))

/-- `ArcString::make_mut_slice`, the copy-on-write gate:
`compare_exchange(1, 0, Acquire, Relaxed)` on the count.  On success the
handle is the sole referent; the count is immediately stored back to 1, so
the net heap effect is none.  On failure a private copy with the same free
capacity is made and `*self = new` drops the old reference. -/
def makeMutSlice (a : ArcString) (h : Heap) : ArcString × Heap :=
  if (h.getBlock a.ptr).ref_count = 1 then
    (a, h)
  else
    let additional := a.capacity h - a.len
    let (anew, h1) := new (a.as_slice h) additional h
    (anew, ArcString.drop a h1)

/-- `ArcString::reserve`: no-op when the free capacity covers `additional`;
otherwise grow to `max (3 * capacity / 2) (capacity + additional)` by
rebuilding via `new` (the assignment `*self = ...` drops the old
reference). -/
def reserve (a : ArcString) (additional : Nat) (h : Heap) : ArcString × Heap :=
  if additional > a.capacity h - a.len then
    let required := a.capacity h + additional
    let amortized := 3 * a.capacity h / 2
    let new_capacity := max amortized required
    let (anew, h1) := new (a.as_slice h) (new_capacity - a.len) h
    (anew, ArcString.drop a h1)
  else
    (a, h)

/-- The `debug_assert!(additional > 0)` at the top of `ArcString::reserve`. -/
def reserveDebugAssert (additional : Nat) : Prop :=
  additional > 0

instance (additional : Nat) : Decidable (reserveDebugAssert additional) :=
  Nat.decLt _ _

/-- `ArcString::push`: reserve `ch.len_utf8()` bytes, gate for exclusivity,
encode `ch` at offset `len`, advance `len`. -/
def push (a : ArcString) (ch : Char) (h : Heap) : ArcString × Heap :=
  let len := a.len
  let char_len := utf8Len ch
  let (a1, h1) := a.reserve char_len h
  let (a2, h2) := a1.makeMutSlice h1
  let blk := h2.getBlock a2.ptr
  let h3 := h2.set a2.ptr (some { blk with str_buffer := copyInto blk.str_buffer len (utf8EncodeChar ch) })
  ({ a2 with len := a2.len + char_len }, h3)

/-- `ArcString::pop`: take the last character of `as_str` and shrink `len`
by its encoded length; `None` on empty content.  The heap is returned
untouched — `pop` performs no write and never invokes the gate. -/
def pop (a : ArcString) (h : Heap) : Option Char × ArcString × Heap :=
  match (a.as_str h).getLast? with
  | none => (none, a, h)
  | some c => (some c, { a with len := a.len - utf8Len c }, h)

/-- `ArcString::push_str`: reserve `s.len()` bytes, gate for exclusivity,
copy `s`'s bytes at offset `len`, advance `len`.  `s` is the byte content
of the argument `&str`. -/
def push_str (a : ArcString) (s : List Nat) (h : Heap) : ArcString × Heap :=
  let len := a.len
  let str_len := s.length
  let (a1, h1) := a.reserve str_len h
  let (a2, h2) := a1.makeMutSlice h1
  let blk := h2.getBlock a2.ptr
  let h3 := h2.set a2.ptr (some { blk with str_buffer := copyInto blk.str_buffer len s })
  ({ a2 with len := a2.len + str_len }, h3)

/-- The `additional` that `push_str` passes to `reserve` (`str_len`). -/
def pushStrReserveArg (s : List Nat) : Nat :=
  s.length

/-- `Extend<char> for ArcString`: reserve the iterator's lower size-hint
bound once, then push each character.  The iterator is modelled by its
element list `cs` together with the hint `lower_bound`. -/
def extendChars (a : ArcString) (lower_bound : Nat) (cs : List Char) (h : Heap) :
    ArcString × Heap :=
  let (a1, h1) := a.reserve lower_bound h
  cs.foldl (fun p c => p.1.push c p.2) (a1, h1)

/-- `Extend<&str> for ArcString` (and the `Box<str>` / `String` variants):
push each string in turn. -/
def extendStrs (a : ArcString) (ss : List (List Char)) (h : Heap) : ArcString × Heap :=
  ss.foldl (fun p s => p.1.push_str (utf8Encode s) p.2) (a, h)

end ArcString

/-! ## Heap access lemmas -/

theorem Heap.length_set (h : Heap) (i : Nat) (b : Option ArcStringInner) :
    (h.set i b).blocks.length = h.blocks.length :=
  List.length_set ..

theorem Heap.get_set_self (h : Heap) (i : Nat) (b : Option ArcStringInner)
    (hi : i < h.blocks.length) : (h.set i b).get i = b := by
  unfold Heap.get Heap.set
  simp [List.getElem?_set_self hi]

theorem Heap.get_set_ne (h : Heap) (i j : Nat) (b : Option ArcStringInner)
    (hij : i ≠ j) : (h.set i b).get j = h.get j := by
  unfold Heap.get Heap.set
  simp [List.getElem?_set_ne hij]

theorem Heap.length_alloc (h : Heap) (b : ArcStringInner) :
    (h.alloc b).2.blocks.length = h.blocks.length + 1 := by
  unfold Heap.alloc
  simp

theorem Heap.alloc_fst (h : Heap) (b : ArcStringInner) :
    (h.alloc b).1 = h.blocks.length := rfl

theorem Heap.get_alloc_self (h : Heap) (b : ArcStringInner) :
    (h.alloc b).2.get h.blocks.length = some b := by
  unfold Heap.alloc Heap.get
  simp [List.getElem?_concat_length]

theorem Heap.get_alloc_ne (h : Heap) (b : ArcStringInner) (j : Nat)
    (hj : j ≠ h.blocks.length) : (h.alloc b).2.get j = h.get j := by
  unfold Heap.alloc Heap.get
  rcases Nat.lt_or_ge j h.blocks.length with hlt | hge
  · simp [List.getElem?_append_left hlt]
  · have hgt : h.blocks.length < j := Nat.lt_of_le_of_ne hge (fun e => hj e.symm)
    have h1 : (h.blocks ++ [some b])[j]? = none := by
      apply List.getElem?_eq_none
      simp; omega
    have h2 : h.blocks[j]? = none := by
      apply List.getElem?_eq_none
      omega
    simp [h1, h2]

theorem Heap.get_none_of_le (h : Heap) (i : Nat) (hi : h.blocks.length ≤ i) :
    h.get i = none := by
  unfold Heap.get
  simp [List.getElem?_eq_none hi]

theorem Heap.lt_of_get_some (h : Heap) (i : Nat) (blk : ArcStringInner)
    (hg : h.get i = some blk) : i < h.blocks.length := by
  by_contra hge
  rw [Heap.get_none_of_le h i (by omega)] at hg
  exact Option.noConfusion hg

theorem Heap.getBlock_eq (h : Heap) (i : Nat) (blk : ArcStringInner)
    (hg : h.get i = some blk) : h.getBlock i = blk := by
  unfold Heap.getBlock
  rw [hg]
  rfl

/-! ## copyInto lemmas -/

theorem length_copyInto (dst src : List Nat) (off : Nat)
    (h : off + src.length ≤ dst.length) :
    (copyInto dst off src).length = dst.length := by
  unfold copyInto
  simp
  omega

theorem take_copyInto_full (dst src : List Nat) (off : Nat) (hoff : off ≤ dst.length) :
    (copyInto dst off src).take (off + src.length) = dst.take off ++ src := by
  unfold copyInto
  rw [List.append_assoc]
  have hlen : (dst.take off ++ src).length = off + src.length := by
    simp [Nat.min_eq_left hoff]
  rw [← List.append_assoc]
  exact List.take_left' hlen

/-! ## Reference counting over a list of live handles -/

/-- The number of live handles in `xs` that reference block `b`. -/
def refs : List ArcString → Nat → Nat
  | [], _ => 0
  | a :: rest, b => (if a.ptr = b then 1 else 0) + refs rest b

theorem refs_append (xs ys : List ArcString) (b : Nat) :
    refs (xs ++ ys) b = refs xs b + refs ys b := by
  induction xs with
  | nil => simp [refs]
  | cons a rest ih => simp [refs, ih]; omega

theorem refs_pos_iff (xs : List ArcString) (b : Nat) :
    0 < refs xs b ↔ ∃ a ∈ xs, a.ptr = b := by
  induction xs with
  | nil => simp [refs]
  | cons a rest ih =>
    by_cases hab : a.ptr = b
    · simp [refs, hab]
    · simp [refs, hab, ih]

theorem refs_eq_zero_of_handles_lt (xs : List ArcString) (b : Nat)
    (hlt : ∀ a ∈ xs, a.ptr < b) : refs xs b = 0 := by
  by_contra hne
  have hpos : 0 < refs xs b := Nat.pos_of_ne_zero hne
  obtain ⟨a, ha, hab⟩ := (refs_pos_iff xs b).mp hpos
  exact absurd hab (Nat.ne_of_lt (hlt a ha))

theorem refs_set (xs : List ArcString) (i : Nat) (a d : ArcString) (b : Nat)
    (hi : i < xs.length) :
    refs (xs.set i a) b + (if (xs.getD i d).ptr = b then 1 else 0)
      = refs xs b + (if a.ptr = b then 1 else 0) := by
  induction xs generalizing i with
  | nil => simp at hi
  | cons x rest ih =>
    cases i with
    | zero => simp [refs]; omega
    | succ n =>
      have hn : n < rest.length := by simpa using hi
      have := ih n hn
      simp [refs, List.getD] at this ⊢
      omega

theorem refs_eraseIdx (xs : List ArcString) (i : Nat) (d : ArcString) (b : Nat)
    (hi : i < xs.length) :
    refs (xs.eraseIdx i) b + (if (xs.getD i d).ptr = b then 1 else 0) = refs xs b := by
  induction xs generalizing i with
  | nil => simp at hi
  | cons x rest ih =>
    cases i with
    | zero => simp [refs]; omega
    | succ n =>
      have hn : n < rest.length := by simpa using hi
      have := ih n hn
      simp [refs, List.getD] at this ⊢
      omega

theorem mem_set_subset (xs : List ArcString) (i : Nat) (y x : ArcString)
    (hx : x ∈ xs.set i y) : x = y ∨ x ∈ xs.eraseIdx i := by
  induction xs generalizing i with
  | nil => simp at hx
  | cons a rest ih =>
    cases i with
    | zero =>
      simp at hx ⊢
      rcases hx with h | h
      · exact Or.inl h
      · exact Or.inr h
    | succ n =>
      simp at hx ⊢
      rcases hx with h | h
      · exact Or.inr (Or.inl h)
      · rcases ih n h with h2 | h2
        · exact Or.inl h2
        · exact Or.inr (Or.inr h2)

theorem getD_mem (xs : List ArcString) (i : Nat) (d : ArcString) (hi : i < xs.length) :
    xs.getD i d ∈ xs := by
  induction xs generalizing i with
  | nil => simp at hi
  | cons a rest ih =>
    cases i with
    | zero => simp [List.getD]
    | succ n =>
      have hn : n < rest.length := by simpa using hi
      simp [List.getD]
      right
      simpa [List.getD] using ih n hn

/-! ## Well-formedness of handles and the refcount context

`HandleWF h a`: the handle points at a live block, its length fits in the
block's capacity, the buffer really has `capacity` bytes, and the committed
range is the UTF-8 encoding of some character list.

`Ctx others a h`: handle `a` is well formed, so is every handle in
`others`, and every live block's reference count equals the number of
handles among `a :: others` that point at it. -/

def HandleWF (h : Heap) (a : ArcString) : Prop :=
  ∃ blk, h.get a.ptr = some blk ∧ a.len ≤ blk.capacity ∧
    blk.str_buffer.length = blk.capacity ∧
    ∃ t : List Char, blk.str_buffer.take a.len = utf8Encode t

def Ctx (others : List ArcString) (a : ArcString) (h : Heap) : Prop :=
  HandleWF h a ∧ (∀ o ∈ others, HandleWF h o) ∧
  ∀ b blk, h.get b = some blk → blk.ref_count = refs others b + (if a.ptr = b then 1 else 0)

theorem HandleWF.ptr_lt (h : Heap) (a : ArcString) (hwf : HandleWF h a) :
    a.ptr < h.blocks.length := by
  obtain ⟨blk, hg, _⟩ := hwf
  exact Heap.lt_of_get_some h a.ptr blk hg

theorem HandleWF.as_slice_eq (h : Heap) (a : ArcString) (blk : ArcStringInner)
    (hg : h.get a.ptr = some blk) :
    a.as_slice h = blk.str_buffer.take a.len := by
  unfold ArcString.as_slice ArcStringInner.as_bytes
  rw [Heap.getBlock_eq h a.ptr blk hg]

theorem capacity_eq (a : ArcString) (h : Heap) (blk : ArcStringInner)
    (hg : h.get a.ptr = some blk) : a.capacity h = blk.capacity := by
  unfold ArcString.capacity
  rw [Heap.getBlock_eq _ _ _ hg]

theorem HandleWF.length_as_slice (h : Heap) (a : ArcString) (hwf : HandleWF h a) :
    (a.as_slice h).length = a.len := by
  obtain ⟨blk, hg, hle, hbl, _⟩ := hwf
  rw [HandleWF.as_slice_eq h a blk hg]
  simp
  omega

/-! ## Specification of `ArcString::new` -/

theorem new_spec (text : List Nat) (add : Nat) (h : Heap) :
    (ArcString.new text add h).1.len = text.length ∧
    (ArcString.new text add h).1.ptr = h.blocks.length ∧
    (ArcString.new text add h).2.get h.blocks.length
      = some ⟨1, text.length + add, text ++ List.replicate add 0⟩ ∧
    (∀ b, b ≠ h.blocks.length → (ArcString.new text add h).2.get b = h.get b) ∧
    (ArcString.new text add h).2.blocks.length = h.blocks.length + 1 := by
  have hbuf : copyInto (List.replicate (text.length + add) 0) 0 text
      = text ++ List.replicate add 0 := by
    unfold copyInto
    simp
  unfold ArcString.new ArcStringInner.withCapacity
  refine ⟨rfl, rfl, ?_, ?_, ?_⟩
  · simp only
    rw [hbuf]
    exact Heap.get_alloc_self h _
  · intro b hb
    exact Heap.get_alloc_ne h _ b hb
  · exact Heap.length_alloc h _

/-! ## The replace step: `*self = ArcString::new(...)`

Both the growth path of `reserve` and the split path of `make_mut_slice`
construct a fresh block from `text` and then drop the old reference by
overwriting `self`. -/

def replaceOp (a : ArcString) (text : List Nat) (add : Nat) (h : Heap) : ArcString × Heap :=
  let p := ArcString.new text add h
  (p.1, ArcString.drop a p.2)

theorem replaceCtx (others : List ArcString) (a : ArcString) (h : Heap)
    (text : List Nat) (add : Nat)
    (hctx : Ctx others a h) (htext : ∃ t : List Char, text = utf8Encode t) :
    Ctx others (replaceOp a text add h).1 (replaceOp a text add h).2 ∧
    (replaceOp a text add h).1.len = text.length ∧
    (replaceOp a text add h).1.ptr = h.blocks.length ∧
    (replaceOp a text add h).2.get h.blocks.length
      = some ⟨1, text.length + add, text ++ List.replicate add 0⟩ ∧
    (∀ o ∈ others, o.as_slice (replaceOp a text add h).2 = o.as_slice h) ∧
    h.blocks.length ≤ (replaceOp a text add h).2.blocks.length ∧
    refs others (replaceOp a text add h).1.ptr = 0 := by
  obtain ⟨⟨blk, hga, hle, hbl, t0, ht0⟩, hothers, hrc⟩ := hctx
  obtain ⟨tt, htt⟩ := htext
  have hnew := new_spec text add h
  obtain ⟨hn_len, hn_ptr, hn_getf, hn_getne, hn_length⟩ := hnew
  have haptr : a.ptr < h.blocks.length := Heap.lt_of_get_some h a.ptr blk hga
  have hanef : a.ptr ≠ h.blocks.length := Nat.ne_of_lt haptr
  have hpa : (ArcString.new text add h).2.get a.ptr = some blk := by
    rw [hn_getne a.ptr hanef]; exact hga
  have hrca : blk.ref_count = refs others a.ptr + 1 := by
    have := hrc a.ptr blk hga
    simpa using this
  have hdrop : ArcString.drop a (ArcString.new text add h).2 =
      (if blk.ref_count ≠ 1 then
        (ArcString.new text add h).2.set a.ptr (some { blk with ref_count := blk.ref_count - 1 })
      else
        (ArcString.new text add h).2.set a.ptr none) := by
    unfold ArcString.drop
    rw [hpa]
  have hothers_lt : ∀ o ∈ others, o.ptr < h.blocks.length := by
    intro o ho
    exact HandleWF.ptr_lt h o (hothers o ho)
  have hrefs_f : refs others h.blocks.length = 0 :=
    refs_eq_zero_of_handles_lt others h.blocks.length hothers_lt
  -- the final heap and its lookups
  have hlen2 : (replaceOp a text add h).2.blocks.length = h.blocks.length + 1 := by
    show (ArcString.drop a (ArcString.new text add h).2).blocks.length = _
    rw [hdrop]
    split <;> rw [Heap.length_set] <;> exact hn_length
  have hget_f : (replaceOp a text add h).2.get h.blocks.length
      = some ⟨1, text.length + add, text ++ List.replicate add 0⟩ := by
    show (ArcString.drop a (ArcString.new text add h).2).get h.blocks.length = _
    rw [hdrop]
    split <;> rw [Heap.get_set_ne _ _ _ _ hanef] <;> exact hn_getf
  have hget_other : ∀ b, b ≠ h.blocks.length → b ≠ a.ptr →
      (replaceOp a text add h).2.get b = h.get b := by
    intro b hbf hba
    show (ArcString.drop a (ArcString.new text add h).2).get b = _
    rw [hdrop]
    have hba' : a.ptr ≠ b := fun e => hba e.symm
    split <;> rw [Heap.get_set_ne _ _ _ _ hba'] <;> exact hn_getne b hbf
  have hget_a : (replaceOp a text add h).2.get a.ptr =
      (if blk.ref_count ≠ 1 then some { blk with ref_count := blk.ref_count - 1 } else none) := by
    show (ArcString.drop a (ArcString.new text add h).2).get a.ptr = _
    rw [hdrop]
    have halt2 : a.ptr < (ArcString.new text add h).2.blocks.length := by
      rw [hn_length]; omega
    split <;> exact Heap.get_set_self _ _ _ halt2
  have hfresh_wf : HandleWF (replaceOp a text add h).2 (replaceOp a text add h).1 := by
    refine ⟨⟨1, text.length + add, text ++ List.replicate add 0⟩, ?_, ?_, ?_, ⟨tt, ?_⟩⟩
    · show (replaceOp a text add h).2.get (ArcString.new text add h).1.ptr = _
      rw [hn_ptr]
      exact hget_f
    · show (ArcString.new text add h).1.len ≤ _
      rw [hn_len]
      simp
    · simp
    · show (text ++ List.replicate add 0).take (ArcString.new text add h).1.len = _
      rw [hn_len, List.take_left, htt]
  refine ⟨⟨hfresh_wf, ?_, ?_⟩, ?_, ?_, hget_f, ?_, ?_, ?_⟩
  · -- other handles stay well formed
    intro o ho
    obtain ⟨oblk, hgo, holen, hobl, u, hu⟩ := hothers o ho
    have honef : o.ptr ≠ h.blocks.length := Nat.ne_of_lt (hothers_lt o ho)
    by_cases hoa : o.ptr = a.ptr
    · -- `o` aliases the dropped block: the count was at least 2, so only the
      -- count changed
      have hoblk : oblk = blk := by
        rw [hoa] at hgo
        rw [hga] at hgo
        exact ((Option.some.injEq _ _).mp hgo).symm
      have hrpos : 0 < refs others a.ptr := by
        rw [refs_pos_iff]
        exact ⟨o, ho, hoa⟩
      have hne1 : blk.ref_count ≠ 1 := by omega
      refine ⟨{ blk with ref_count := blk.ref_count - 1 }, ?_, ?_, ?_, ⟨u, ?_⟩⟩
      · rw [hoa, hget_a, if_pos hne1]
      · subst hoblk; exact holen
      · subst hoblk; exact hobl
      · subst hoblk; exact hu
    · refine ⟨oblk, ?_, holen, hobl, ⟨u, hu⟩⟩
      rw [hget_other o.ptr honef hoa]
      exact hgo
  · -- reference counts stay consistent
    intro b blk2 hb
    have hfptr : (replaceOp a text add h).1.ptr = h.blocks.length := hn_ptr
    by_cases hbf : b = h.blocks.length
    · subst hbf
      rw [hget_f] at hb
      have : blk2 = ⟨1, text.length + add, text ++ List.replicate add 0⟩ :=
        ((Option.some.injEq _ _).mp hb).symm
      subst this
      simp [hfptr, hrefs_f]
    · by_cases hba : b = a.ptr
      · subst hba
        rw [hget_a] at hb
        by_cases hone : blk.ref_count ≠ 1
        · rw [if_pos hone] at hb
          have : blk2 = { blk with ref_count := blk.ref_count - 1 } :=
            ((Option.some.injEq _ _).mp hb).symm
          subst this
          have hne : (replaceOp a text add h).1.ptr ≠ a.ptr := by
            rw [hfptr]
            exact Ne.symm hanef
          rw [if_neg hne]
          show blk.ref_count - 1 = refs others a.ptr + 0
          omega
        · rw [if_neg hone] at hb
          exact Option.noConfusion hb
      · have hgb : h.get b = some blk2 := by
          rw [← hget_other b hbf hba]; exact hb
        have := hrc b blk2 hgb
        have hne : a.ptr ≠ b := fun e => hba e.symm
        rw [if_neg hne] at this
        have hne2 : (replaceOp a text add h).1.ptr ≠ b := by
          rw [hfptr]; exact fun e => hbf e.symm
        rw [if_neg hne2]
        simpa using this
  · exact hn_len
  · exact hn_ptr
  · -- other handles read the same content
    intro o ho
    obtain ⟨oblk, hgo, holen, hobl, u, hu⟩ := hothers o ho
    have honef : o.ptr ≠ h.blocks.length := Nat.ne_of_lt (hothers_lt o ho)
    by_cases hoa : o.ptr = a.ptr
    · have hoblk : oblk = blk := by
        rw [hoa] at hgo; rw [hga] at hgo
        exact ((Option.some.injEq _ _).mp hgo).symm
      have hrpos : 0 < refs others a.ptr := by
        rw [refs_pos_iff]; exact ⟨o, ho, hoa⟩
      have hne1 : blk.ref_count ≠ 1 := by
        rw [hrca]; omega
      unfold ArcString.as_slice ArcStringInner.as_bytes
      rw [Heap.getBlock_eq _ o.ptr { blk with ref_count := blk.ref_count - 1 }
          (by rw [hoa, hget_a, if_pos hne1]),
        Heap.getBlock_eq h o.ptr oblk hgo]
      subst hoblk
      rfl
    · unfold ArcString.as_slice ArcStringInner.as_bytes
      rw [Heap.getBlock_eq _ o.ptr oblk (by rw [hget_other o.ptr honef hoa]; exact hgo),
        Heap.getBlock_eq h o.ptr oblk hgo]
  · omega
  · have hfp : (replaceOp a text add h).1.ptr = h.blocks.length := hn_ptr
    rw [hfp]
    exact hrefs_f

theorem replace_more (others : List ArcString) (a : ArcString) (h : Heap)
    (text : List Nat) (add : Nat)
    (hctx : Ctx others a h) (htext : ∃ t : List Char, text = utf8Encode t) :
    (replaceOp a text add h).1.as_slice (replaceOp a text add h).2 = text ∧
    (replaceOp a text add h).1.capacity (replaceOp a text add h).2 = text.length + add ∧
    ((replaceOp a text add h).2.getBlock (replaceOp a text add h).1.ptr).ref_count = 1 := by
  obtain ⟨hctx2, hlen, hptr, hgetf, hframe, hlength, hrefs0⟩ :=
    replaceCtx others a h text add hctx htext
  have hget : (replaceOp a text add h).2.get (replaceOp a text add h).1.ptr
      = some ⟨1, text.length + add, text ++ List.replicate add 0⟩ := by
    rw [hptr]; exact hgetf
  refine ⟨?_, ?_, ?_⟩
  · rw [HandleWF.as_slice_eq _ _ _ hget, hlen]
    show (text ++ List.replicate add 0).take text.length = text
    exact List.take_left text _
  · unfold ArcString.capacity
    rw [Heap.getBlock_eq _ _ _ hget]
  · rw [Heap.getBlock_eq _ _ _ hget]

/-! ## `reserve` and `make_mut_slice` context lemmas -/

theorem reserveCtx (others : List ArcString) (a : ArcString) (h : Heap)
    (additional : Nat) (hctx : Ctx others a h) :
    Ctx others (a.reserve additional h).1 (a.reserve additional h).2 ∧
    (a.reserve additional h).1.len = a.len ∧
    (a.reserve additional h).1.as_slice (a.reserve additional h).2 = a.as_slice h ∧
    additional ≤ (a.reserve additional h).1.capacity (a.reserve additional h).2
      - (a.reserve additional h).1.len ∧
    (∀ o ∈ others, o.as_slice (a.reserve additional h).2 = o.as_slice h) ∧
    h.blocks.length ≤ (a.reserve additional h).2.blocks.length := by
  obtain ⟨⟨blk, hga, hle, hbl, t0, ht0⟩, hothers, hrc⟩ := hctx
  have hctx' : Ctx others a h := ⟨⟨blk, hga, hle, hbl, t0, ht0⟩, hothers, hrc⟩
  have hcap : a.capacity h = blk.capacity := by
    unfold ArcString.capacity
    rw [Heap.getBlock_eq _ _ _ hga]
  have htext : ∃ t : List Char, a.as_slice h = utf8Encode t := by
    refine ⟨t0, ?_⟩
    rw [HandleWF.as_slice_eq _ _ _ hga]
    exact ht0
  have hslice_len : (a.as_slice h).length = a.len :=
    HandleWF.length_as_slice h a ⟨blk, hga, hle, hbl, t0, ht0⟩
  by_cases hgrow : additional > a.capacity h - a.len
  · have heq : a.reserve additional h =
        replaceOp a (a.as_slice h)
          (max (3 * a.capacity h / 2) (a.capacity h + additional) - a.len) h := by
      unfold ArcString.reserve replaceOp
      rw [if_pos hgrow]
    obtain ⟨hc, hlen, hptr, hgetf, hframe, hlength, hrefs0⟩ :=
      replaceCtx others a h (a.as_slice h)
        (max (3 * a.capacity h / 2) (a.capacity h + additional) - a.len) hctx' htext
    obtain ⟨hslice, hcapres, hrc1⟩ :=
      replace_more others a h (a.as_slice h)
        (max (3 * a.capacity h / 2) (a.capacity h + additional) - a.len) hctx' htext
    rw [heq]
    refine ⟨hc, ?_, hslice, ?_, hframe, hlength⟩
    · rw [hlen, hslice_len]
    · rw [hcapres, hlen, hslice_len]
      rw [hcap] at hgrow ⊢
      omega
  · have heq : a.reserve additional h = (a, h) := by
      unfold ArcString.reserve
      rw [if_neg hgrow]
    rw [heq]
    refine ⟨hctx', rfl, rfl, ?_, fun o _ => rfl, le_refl _⟩
    show additional ≤ a.capacity h - a.len
    omega

theorem mmsCtx (others : List ArcString) (a : ArcString) (h : Heap)
    (hctx : Ctx others a h) :
    Ctx others (a.makeMutSlice h).1 (a.makeMutSlice h).2 ∧
    (a.makeMutSlice h).1.len = a.len ∧
    (a.makeMutSlice h).1.as_slice (a.makeMutSlice h).2 = a.as_slice h ∧
    (a.makeMutSlice h).1.capacity (a.makeMutSlice h).2 = a.capacity h ∧
    refs others (a.makeMutSlice h).1.ptr = 0 ∧
    ((a.makeMutSlice h).2.getBlock (a.makeMutSlice h).1.ptr).ref_count = 1 ∧
    (∀ o ∈ others, o.as_slice (a.makeMutSlice h).2 = o.as_slice h) ∧
    h.blocks.length ≤ (a.makeMutSlice h).2.blocks.length := by
  obtain ⟨⟨blk, hga, hle, hbl, t0, ht0⟩, hothers, hrc⟩ := hctx
  have hctx' : Ctx others a h := ⟨⟨blk, hga, hle, hbl, t0, ht0⟩, hothers, hrc⟩
  have hcap : a.capacity h = blk.capacity := by
    unfold ArcString.capacity
    rw [Heap.getBlock_eq _ _ _ hga]
  have hgb : h.getBlock a.ptr = blk := Heap.getBlock_eq _ _ _ hga
  have htext : ∃ t : List Char, a.as_slice h = utf8Encode t := by
    refine ⟨t0, ?_⟩
    rw [HandleWF.as_slice_eq _ _ _ hga]
    exact ht0
  have hslice_len : (a.as_slice h).length = a.len :=
    HandleWF.length_as_slice h a ⟨blk, hga, hle, hbl, t0, ht0⟩
  by_cases hone : (h.getBlock a.ptr).ref_count = 1
  · have heq : a.makeMutSlice h = (a, h) := by
      unfold ArcString.makeMutSlice
      rw [if_pos hone]
    rw [heq]
    have hrefs0 : refs others a.ptr = 0 := by
      have := hrc a.ptr blk hga
      rw [hgb] at hone
      simp at this
      omega
    exact ⟨hctx', rfl, rfl, rfl, hrefs0, by rw [hgb]; rw [hgb] at hone; exact hone,
      fun o _ => rfl, le_refl _⟩
  · have heq : a.makeMutSlice h = replaceOp a (a.as_slice h) (a.capacity h - a.len) h := by
      unfold ArcString.makeMutSlice replaceOp
      rw [if_neg hone]
    obtain ⟨hc, hlen, hptr, hgetf, hframe, hlength, hrefs0⟩ :=
      replaceCtx others a h (a.as_slice h) (a.capacity h - a.len) hctx' htext
    obtain ⟨hslice, hcapres, hrc1⟩ :=
      replace_more others a h (a.as_slice h) (a.capacity h - a.len) hctx' htext
    rw [heq]
    refine ⟨hc, ?_, hslice, ?_, hrefs0, hrc1, hframe, hlength⟩
    · rw [hlen, hslice_len]
    · rw [hcapres, hslice_len, hcap]
      rw [hcap] at *
      omega

/-! ## The common append path of `push` and `push_str`

Both mutators reserve space, claim exclusivity through the gate, copy the
new bytes at offset `len` and advance `len`.  `genericAppend` captures that
shape; `push` instantiates it with the UTF-8 encoding of the character and
`push_str` with the string's bytes. -/

def genericAppend (a : ArcString) (reserveAmt : Nat) (src : List Nat) (h : Heap) :
    ArcString × Heap :=
  let len := a.len
  let (a1, h1) := a.reserve reserveAmt h
  let (a2, h2) := a1.makeMutSlice h1
  let blk := h2.getBlock a2.ptr
  let h3 := h2.set a2.ptr (some { blk with str_buffer := copyInto blk.str_buffer len src })
  ({ a2 with len := a2.len + src.length }, h3)

theorem push_eq_generic (a : ArcString) (ch : Char) (h : Heap) :
    a.push ch h = genericAppend a (utf8Len ch) (utf8EncodeChar ch) h := by
  unfold ArcString.push genericAppend
  rw [length_utf8EncodeChar]

theorem push_str_eq_generic (a : ArcString) (s : List Nat) (h : Heap) :
    a.push_str s h = genericAppend a s.length s h := rfl

theorem genericCtx (others : List ArcString) (a : ArcString) (h : Heap)
    (reserveAmt : Nat) (src : List Nat)
    (hctx : Ctx others a h) (hamt : src.length ≤ reserveAmt)
    (hsrc : ∀ t : List Char, ∃ u : List Char, utf8Encode t ++ src = utf8Encode u) :
    Ctx others (genericAppend a reserveAmt src h).1 (genericAppend a reserveAmt src h).2 ∧
    (genericAppend a reserveAmt src h).1.len = a.len + src.length ∧
    (genericAppend a reserveAmt src h).1.as_slice (genericAppend a reserveAmt src h).2
      = a.as_slice h ++ src ∧
    (∀ o ∈ others, o.as_slice (genericAppend a reserveAmt src h).2 = o.as_slice h) ∧
    h.blocks.length ≤ (genericAppend a reserveAmt src h).2.blocks.length := by
  obtain ⟨Rctx, Rlen, Rslice, Rfree, Rframe, Rlength⟩ := reserveCtx others a h reserveAmt hctx
  obtain ⟨Mctx, Mlen, Mslice, Mcap, Mrefs, Mrc, Mframe, Mlength⟩ :=
    mmsCtx others (a.reserve reserveAmt h).1 (a.reserve reserveAmt h).2 Rctx
  obtain ⟨⟨blk2, hg2, hle2, hbl2, t2, ht2⟩, hoth2, hrc2⟩ := Mctx
  set A2 := ((a.reserve reserveAmt h).1.makeMutSlice (a.reserve reserveAmt h).2).1 with hA2def
  set H2 := ((a.reserve reserveAmt h).1.makeMutSlice (a.reserve reserveAmt h).2).2 with hH2def
  have hgb2 : H2.getBlock A2.ptr = blk2 := Heap.getBlock_eq _ _ _ hg2
  have hlen2 : A2.len = a.len := by rw [Mlen, Rlen]
  have hslice2 : A2.as_slice H2 = a.as_slice h := by rw [Mslice, Rslice]
  have hrc1 : blk2.ref_count = 1 := by rw [← hgb2]; exact Mrc
  have hptrlt : A2.ptr < H2.blocks.length := Heap.lt_of_get_some _ _ _ hg2
  have hcapblk : A2.capacity H2 = blk2.capacity := by
    unfold ArcString.capacity
    rw [hgb2]
  have hfits : a.len + src.length ≤ blk2.capacity := by
    have h1 : reserveAmt ≤ (a.reserve reserveAmt h).1.capacity (a.reserve reserveAmt h).2
        - (a.reserve reserveAmt h).1.len := Rfree
    have h2 : A2.capacity H2 = (a.reserve reserveAmt h).1.capacity (a.reserve reserveAmt h).2 :=
      Mcap
    have h3 : (a.reserve reserveAmt h).1.len = a.len := Rlen
    rw [← hcapblk, h2]
    omega
  have hfits' : a.len + src.length ≤ blk2.str_buffer.length := by rw [hbl2]; exact hfits
  have hoffle : a.len ≤ blk2.str_buffer.length := by omega
  have hgen : genericAppend a reserveAmt src h
      = (⟨A2.len + src.length, A2.ptr⟩,
         H2.set A2.ptr (some { blk2 with str_buffer := copyInto blk2.str_buffer a.len src })) := by
    rw [← hgb2]
    rfl
  have hslice_take : A2.as_slice H2 = blk2.str_buffer.take a.len := by
    rw [HandleWF.as_slice_eq H2 A2 blk2 hg2, hlen2]
  have hget3_self : (H2.set A2.ptr
        (some { blk2 with str_buffer := copyInto blk2.str_buffer a.len src })).get A2.ptr
      = some { blk2 with str_buffer := copyInto blk2.str_buffer a.len src } :=
    Heap.get_set_self _ _ _ hptrlt
  have hget3_ne : ∀ b, b ≠ A2.ptr → (H2.set A2.ptr
        (some { blk2 with str_buffer := copyInto blk2.str_buffer a.len src })).get b
      = H2.get b := by
    intro b hb
    exact Heap.get_set_ne _ _ _ _ (fun e => hb e.symm)
  have hothers_ne : ∀ o ∈ others, o.ptr ≠ A2.ptr := by
    intro o ho he
    have : 0 < refs others A2.ptr := (refs_pos_iff others A2.ptr).mpr ⟨o, ho, he⟩
    omega
  have hnewbuf_take : (copyInto blk2.str_buffer a.len src).take (a.len + src.length)
      = blk2.str_buffer.take a.len ++ src := take_copyInto_full _ _ _ hoffle
  rw [hgen]
  refine ⟨⟨?_, ?_, ?_⟩, ?_, ?_, ?_, ?_⟩
  · -- the appended-to handle is well formed
    refine ⟨{ blk2 with str_buffer := copyInto blk2.str_buffer a.len src }, hget3_self, ?_, ?_, ?_⟩
    · show A2.len + src.length ≤ blk2.capacity
      omega
    · show (copyInto blk2.str_buffer a.len src).length = blk2.capacity
      rw [length_copyInto _ _ _ hfits', hbl2]
    · obtain ⟨u, hu⟩ := hsrc t2
      refine ⟨u, ?_⟩
      show (copyInto blk2.str_buffer a.len src).take (A2.len + src.length) = utf8Encode u
      rw [hlen2, hnewbuf_take, ← hu, ← ht2, hlen2]
  · -- other handles stay well formed
    intro o ho
    obtain ⟨oblk, hgo, holen, hobl, u, hu⟩ := hoth2 o ho
    exact ⟨oblk, by rw [hget3_ne o.ptr (hothers_ne o ho)]; exact hgo, holen, hobl, u, hu⟩
  · -- reference counts stay consistent
    intro b blk' hb
    by_cases hbA : b = A2.ptr
    · subst hbA
      rw [hget3_self] at hb
      have hblk' : blk' = { blk2 with str_buffer := copyInto blk2.str_buffer a.len src } :=
        ((Option.some.injEq _ _).mp hb).symm
      subst hblk'
      have hcond : (⟨A2.len + src.length, A2.ptr⟩ : ArcString).ptr = A2.ptr := rfl
      rw [if_pos hcond, Mrefs]
      show blk2.ref_count = 0 + 1
      omega
    · rw [hget3_ne b hbA] at hb
      have := hrc2 b blk' hb
      have hne : (⟨A2.len + src.length, A2.ptr⟩ : ArcString).ptr ≠ b := fun e => hbA e.symm
      rw [if_neg hne]
      have hne2 : A2.ptr ≠ b := fun e => hbA e.symm
      rw [if_neg hne2] at this
      exact this
  · show A2.len + src.length = a.len + src.length
    omega
  · -- the handle's view is the old content followed by the new bytes
    show ((H2.set A2.ptr _).getBlock A2.ptr).as_bytes.take (A2.len + src.length)
      = a.as_slice h ++ src
    rw [Heap.getBlock_eq _ _ _ hget3_self]
    show (copyInto blk2.str_buffer a.len src).take (A2.len + src.length) = _
    rw [hlen2, hnewbuf_take, ← hslice_take, hslice2]
  · -- other handles read the same content
    intro o ho
    have hf1 : o.as_slice H2 = o.as_slice h := by rw [Mframe o ho, Rframe o ho]
    obtain ⟨oblk, hgo, _, _, _, _⟩ := hoth2 o ho
    unfold ArcString.as_slice
    rw [Heap.getBlock_eq _ o.ptr oblk (by rw [hget3_ne o.ptr (hothers_ne o ho)]; exact hgo)]
    unfold ArcString.as_slice at hf1
    rw [Heap.getBlock_eq H2 o.ptr oblk hgo] at hf1
    exact hf1
  · rw [Heap.length_set]
    omega

theorem pushCtx (others : List ArcString) (a : ArcString) (h : Heap) (ch : Char)
    (hctx : Ctx others a h) :
    Ctx others (a.push ch h).1 (a.push ch h).2 ∧
    (a.push ch h).1.len = a.len + utf8Len ch ∧
    (a.push ch h).1.as_slice (a.push ch h).2 = a.as_slice h ++ utf8EncodeChar ch ∧
    (∀ o ∈ others, o.as_slice (a.push ch h).2 = o.as_slice h) ∧
    h.blocks.length ≤ (a.push ch h).2.blocks.length := by
  rw [push_eq_generic]
  have hsrc : ∀ t : List Char, ∃ u : List Char,
      utf8Encode t ++ utf8EncodeChar ch = utf8Encode u := by
    intro t
    refine ⟨t ++ [ch], ?_⟩
    rw [utf8Encode_append]
    show utf8Encode t ++ utf8EncodeChar ch = utf8Encode t ++ (utf8EncodeChar ch ++ utf8Encode [])
    show utf8Encode t ++ utf8EncodeChar ch = utf8Encode t ++ (utf8EncodeChar ch ++ [])
    rw [List.append_nil]
  have hamt : (utf8EncodeChar ch).length ≤ utf8Len ch := by
    rw [length_utf8EncodeChar]
  obtain ⟨hc, hlen, hslice, hframe, hlength⟩ :=
    genericCtx others a h (utf8Len ch) (utf8EncodeChar ch) hctx hamt hsrc
  rw [length_utf8EncodeChar] at hlen
  exact ⟨hc, hlen, hslice, hframe, hlength⟩

theorem push_strCtx (others : List ArcString) (a : ArcString) (h : Heap) (v : List Char)
    (hctx : Ctx others a h) :
    Ctx others (a.push_str (utf8Encode v) h).1 (a.push_str (utf8Encode v) h).2 ∧
    (a.push_str (utf8Encode v) h).1.len = a.len + (utf8Encode v).length ∧
    (a.push_str (utf8Encode v) h).1.as_slice (a.push_str (utf8Encode v) h).2
      = a.as_slice h ++ utf8Encode v ∧
    (∀ o ∈ others, o.as_slice (a.push_str (utf8Encode v) h).2 = o.as_slice h) ∧
    h.blocks.length ≤ (a.push_str (utf8Encode v) h).2.blocks.length := by
  rw [push_str_eq_generic]
  have hsrc : ∀ t : List Char, ∃ u : List Char,
      utf8Encode t ++ utf8Encode v = utf8Encode u :=
    fun t => ⟨t ++ v, (utf8Encode_append t v).symm⟩
  exact genericCtx others a h (utf8Encode v).length (utf8Encode v) hctx (le_refl _) hsrc

/-! ## `pop` lemmas -/

theorem pop_spec (a : ArcString) (h : Heap) (hwf : HandleWF h a) :
    (a.as_str h = [] → a.pop h = (none, a, h)) ∧
    (∀ (t : List Char) (c : Char), a.as_str h = t ++ [c] →
      (a.pop h).1 = some c ∧
      (a.pop h).2.1 = ⟨a.len - utf8Len c, a.ptr⟩ ∧
      (a.pop h).2.2 = h ∧
      (a.pop h).2.1.as_slice h = utf8Encode t ∧
      a.len = (utf8Encode t).length + utf8Len c) := by
  obtain ⟨blk, hga, hle, hbl, t0, ht0⟩ := hwf
  have hslice : a.as_slice h = utf8Encode t0 := by
    rw [HandleWF.as_slice_eq h a blk hga]; exact ht0
  have hstr : a.as_str h = t0 := by
    unfold ArcString.as_str
    rw [hslice, utf8Decode_encode]
    rfl
  have hlenslice : (a.as_slice h).length = a.len :=
    HandleWF.length_as_slice h a ⟨blk, hga, hle, hbl, t0, ht0⟩
  constructor
  · intro hempty
    unfold ArcString.pop
    rw [hempty]
    rfl
  · intro t c hcat
    have ht0cat : t0 = t ++ [c] := by rw [← hstr]; exact hcat
    have hlast : (a.as_str h).getLast? = some c := by
      rw [hcat]; exact List.getLast?_concat t
    have hpop : a.pop h = (some c, ⟨a.len - utf8Len c, a.ptr⟩, h) := by
      unfold ArcString.pop
      rw [hlast]
    have hlen_enc : a.len = (utf8Encode t).length + utf8Len c := by
      have : (a.as_slice h).length = (utf8Encode (t ++ [c])).length := by
        rw [hslice, ht0cat]
      rw [hlenslice] at this
      rw [this, utf8Encode_append]
      show (utf8Encode t ++ (utf8EncodeChar c ++ [])).length = _
      rw [List.append_nil]
      simp [length_utf8EncodeChar]
    refine ⟨by rw [hpop], by rw [hpop], by rw [hpop], ?_, hlen_enc⟩
    rw [hpop]
    show ((h.getBlock a.ptr).as_bytes).take (a.len - utf8Len c) = utf8Encode t
    have hsl : (h.getBlock a.ptr).as_bytes = blk.str_buffer := by
      rw [Heap.getBlock_eq h a.ptr blk hga]
      rfl
    rw [hsl]
    have hsub : a.len - utf8Len c = (utf8Encode t).length := by omega
    have htk : blk.str_buffer.take (a.len - utf8Len c)
        = (blk.str_buffer.take a.len).take (a.len - utf8Len c) := by
      rw [List.take_take, Nat.min_eq_left (by omega)]
    rw [htk, ht0, ht0cat, utf8Encode_append, hsub]
    have henc1 : utf8Encode [c] = utf8EncodeChar c ++ [] := rfl
    rw [henc1, List.append_nil]
    exact List.take_left _ _

theorem popCtx (others : List ArcString) (a : ArcString) (h : Heap)
    (hctx : Ctx others a h) :
    Ctx others (a.pop h).2.1 h ∧ (a.pop h).2.2 = h := by
  obtain ⟨hwf, hothers, hrc⟩ := hctx
  have hspec := pop_spec a h hwf
  obtain ⟨blk, hga, hle, hbl, t0, ht0⟩ := hwf
  have hstr : a.as_str h = t0 := by
    unfold ArcString.as_str
    rw [HandleWF.as_slice_eq h a blk hga, ht0, utf8Decode_encode]
    rfl
  rcases List.eq_nil_or_concat t0 with hnil | ⟨t, c, hcat⟩
  · have hpop : a.pop h = (none, a, h) := hspec.1 (by rw [hstr, hnil])
    rw [hpop]
    exact ⟨⟨⟨blk, hga, hle, hbl, t0, ht0⟩, hothers, hrc⟩, rfl⟩
  · have hcat' : t0 = t ++ [c] := by rw [hcat, List.concat_eq_append]
    obtain ⟨h1, h2, h3, h4, h5⟩ := hspec.2 t c (by rw [hstr]; exact hcat')
    have hget' : h.get (a.pop h).2.1.ptr = some blk := by rw [h2]; exact hga
    refine ⟨⟨?_, hothers, ?_⟩, h3⟩
    · refine ⟨blk, hget', ?_, hbl, ⟨t, ?_⟩⟩
      · rw [h2]
        show a.len - utf8Len c ≤ blk.capacity
        omega
      · rw [← HandleWF.as_slice_eq h ((a.pop h).2.1) blk hget']
        exact h4
    · intro b blk' hb
      have := hrc b blk' hb
      rw [h2]
      exact this

/-! ## Bulk extension folds -/

theorem foldPushCtx (others : List ArcString) (cs : List Char) :
    ∀ (a : ArcString) (h : Heap), Ctx others a h →
    Ctx others (cs.foldl (fun p c => p.1.push c p.2) (a, h)).1
        (cs.foldl (fun p c => p.1.push c p.2) (a, h)).2 ∧
    (∀ o ∈ others,
      o.as_slice (cs.foldl (fun p c => p.1.push c p.2) (a, h)).2 = o.as_slice h) ∧
    h.blocks.length ≤ (cs.foldl (fun p c => p.1.push c p.2) (a, h)).2.blocks.length := by
  induction cs with
  | nil => exact fun a h hc => ⟨hc, fun o _ => rfl, le_refl _⟩
  | cons c cs ih =>
    intro a h hc
    obtain ⟨Pctx, _, _, Pframe, Plength⟩ := pushCtx others a h c hc
    obtain ⟨Fctx, Fframe, Flength⟩ := ih (a.push c h).1 (a.push c h).2 Pctx
    simp only [Prod.mk.eta] at Fctx Fframe Flength
    rw [List.foldl_cons]
    dsimp only
    exact ⟨Fctx, fun o ho => by rw [Fframe o ho, Pframe o ho], by omega⟩

theorem foldPushStrCtx (others : List ArcString) (ss : List (List Char)) :
    ∀ (a : ArcString) (h : Heap), Ctx others a h →
    Ctx others (ss.foldl (fun p s => p.1.push_str (utf8Encode s) p.2) (a, h)).1
        (ss.foldl (fun p s => p.1.push_str (utf8Encode s) p.2) (a, h)).2 ∧
    (∀ o ∈ others,
      o.as_slice (ss.foldl (fun p s => p.1.push_str (utf8Encode s) p.2) (a, h)).2
        = o.as_slice h) ∧
    h.blocks.length
      ≤ (ss.foldl (fun p s => p.1.push_str (utf8Encode s) p.2) (a, h)).2.blocks.length := by
  induction ss with
  | nil => exact fun a h hc => ⟨hc, fun o _ => rfl, le_refl _⟩
  | cons s ss ih =>
    intro a h hc
    obtain ⟨Pctx, _, _, Pframe, Plength⟩ := push_strCtx others a h s hc
    obtain ⟨Fctx, Fframe, Flength⟩ :=
      ih (a.push_str (utf8Encode s) h).1 (a.push_str (utf8Encode s) h).2 Pctx
    simp only [Prod.mk.eta] at Fctx Fframe Flength
    rw [List.foldl_cons]
    dsimp only
    exact ⟨Fctx, fun o ho => by rw [Fframe o ho, Pframe o ho], by omega⟩

theorem extendCharsCtx (others : List ArcString) (a : ArcString) (h : Heap)
    (lb : Nat) (cs : List Char) (hctx : Ctx others a h) :
    Ctx others (a.extendChars lb cs h).1 (a.extendChars lb cs h).2 ∧
    (∀ o ∈ others, o.as_slice (a.extendChars lb cs h).2 = o.as_slice h) ∧
    h.blocks.length ≤ (a.extendChars lb cs h).2.blocks.length := by
  obtain ⟨Rctx, _, _, _, Rframe, Rlength⟩ := reserveCtx others a h lb hctx
  obtain ⟨Fctx, Fframe, Flength⟩ :=
    foldPushCtx others cs (a.reserve lb h).1 (a.reserve lb h).2 Rctx
  refine ⟨Fctx, ?_, ?_⟩
  · intro o ho
    show o.as_slice (cs.foldl (fun p c => p.1.push c p.2)
      ((a.reserve lb h).1, (a.reserve lb h).2)).2 = o.as_slice h
    rw [Fframe o ho, Rframe o ho]
  · have : h.blocks.length ≤ (cs.foldl (fun p c => p.1.push c p.2)
        ((a.reserve lb h).1, (a.reserve lb h).2)).2.blocks.length := by omega
    exact this

theorem extendStrsCtx (others : List ArcString) (a : ArcString) (h : Heap)
    (ss : List (List Char)) (hctx : Ctx others a h) :
    Ctx others (a.extendStrs ss h).1 (a.extendStrs ss h).2 ∧
    (∀ o ∈ others, o.as_slice (a.extendStrs ss h).2 = o.as_slice h) ∧
    h.blocks.length ≤ (a.extendStrs ss h).2.blocks.length :=
  foldPushStrCtx others ss a h hctx

/-! ## The state machine of public operations

A system state is the heap plus the list of live handles.  A step is one
whole public operation applied to the state: construction, cloning,
dropping, a mutation of one handle, or a bulk extension.  `&str` arguments
enter as UTF-8 encodings of character lists, as the Rust type guarantees. -/

structure SysState where
  heap : Heap
  handles : List ArcString

def SysState.init : SysState := ⟨⟨[]⟩, []⟩

def applyConstruct (s : SysState) (t : List Char) (additional : Nat) : SysState :=
  ⟨(ArcString.new (utf8Encode t) additional s.heap).2,
   s.handles ++ [(ArcString.new (utf8Encode t) additional s.heap).1]⟩

def applyClone (s : SysState) (i : Nat) : SysState :=
  ⟨((s.handles.getD i default).clone s.heap).2,
   s.handles ++ [((s.handles.getD i default).clone s.heap).1]⟩

def applyDrop (s : SysState) (i : Nat) : SysState :=
  ⟨(s.handles.getD i default).drop s.heap, s.handles.eraseIdx i⟩

def applyPush (s : SysState) (i : Nat) (ch : Char) : SysState :=
  ⟨((s.handles.getD i default).push ch s.heap).2,
   s.handles.set i ((s.handles.getD i default).push ch s.heap).1⟩

def applyPushStr (s : SysState) (i : Nat) (t : List Char) : SysState :=
  ⟨((s.handles.getD i default).push_str (utf8Encode t) s.heap).2,
   s.handles.set i ((s.handles.getD i default).push_str (utf8Encode t) s.heap).1⟩

def applyPop (s : SysState) (i : Nat) : SysState :=
  ⟨((s.handles.getD i default).pop s.heap).2.2,
   s.handles.set i ((s.handles.getD i default).pop s.heap).2.1⟩

def applyReserve (s : SysState) (i : Nat) (additional : Nat) : SysState :=
  ⟨((s.handles.getD i default).reserve additional s.heap).2,
   s.handles.set i ((s.handles.getD i default).reserve additional s.heap).1⟩

def applyExtendChars (s : SysState) (i : Nat) (lb : Nat) (cs : List Char) : SysState :=
  ⟨((s.handles.getD i default).extendChars lb cs s.heap).2,
   s.handles.set i ((s.handles.getD i default).extendChars lb cs s.heap).1⟩

def applyExtendStrs (s : SysState) (i : Nat) (ss : List (List Char)) : SysState :=
  ⟨((s.handles.getD i default).extendStrs ss s.heap).2,
   s.handles.set i ((s.handles.getD i default).extendStrs ss s.heap).1⟩

inductive Step : SysState → SysState → Prop
  | construct (s : SysState) (t : List Char) (additional : Nat) :
      Step s (applyConstruct s t additional)
  | clone (s : SysState) (i : Nat) (hi : i < s.handles.length) :
      Step s (applyClone s i)
  | dropHandle (s : SysState) (i : Nat) (hi : i < s.handles.length) :
      Step s (applyDrop s i)
  | push (s : SysState) (i : Nat) (ch : Char) (hi : i < s.handles.length) :
      Step s (applyPush s i ch)
  | pushStr (s : SysState) (i : Nat) (t : List Char) (hi : i < s.handles.length) :
      Step s (applyPushStr s i t)
  | pop (s : SysState) (i : Nat) (hi : i < s.handles.length) :
      Step s (applyPop s i)
  | reserve (s : SysState) (i : Nat) (additional : Nat) (hi : i < s.handles.length) :
      Step s (applyReserve s i additional)
  | extendChars (s : SysState) (i : Nat) (lb : Nat) (cs : List Char)
      (hi : i < s.handles.length) : Step s (applyExtendChars s i lb cs)
  | extendStrs (s : SysState) (i : Nat) (ss : List (List Char))
      (hi : i < s.handles.length) : Step s (applyExtendStrs s i ss)

def Reachable (s : SysState) : Prop :=
  Relation.ReflTransGen Step SysState.init s

/-- The global invariant: every live handle is well formed, and every live
block's reference count is exactly the number of live handles that point
at it. -/
def Good (s : SysState) : Prop :=
  (∀ a ∈ s.handles, HandleWF s.heap a) ∧
  (∀ b blk, s.heap.get b = some blk → blk.ref_count = refs s.handles b)

theorem good_init : Good SysState.init := by
  constructor
  · intro a ha
    simp [SysState.init] at ha
  · intro b blk hb
    have hnone : SysState.init.heap.get b = none :=
      Heap.get_none_of_le _ _ (Nat.zero_le b)
    rw [hnone] at hb
    exact Option.noConfusion hb

theorem good_to_ctx (s : SysState) (hg : Good s) (i : Nat) (hi : i < s.handles.length) :
    Ctx (s.handles.eraseIdx i) (s.handles.getD i default) s.heap := by
  obtain ⟨hwf, hrc⟩ := hg
  refine ⟨hwf _ (getD_mem s.handles i default hi), ?_, ?_⟩
  · intro o ho
    exact hwf o (List.mem_of_mem_eraseIdx ho)
  · intro b blk hb
    have heq := refs_eraseIdx s.handles i default b hi
    have hfull := hrc b blk hb
    by_cases hpb : (s.handles.getD i default).ptr = b
    · rw [if_pos hpb] at heq ⊢
      omega
    · rw [if_neg hpb] at heq ⊢
      omega

theorem good_set (s : SysState) (i : Nat) (hi : i < s.handles.length)
    (a' : ArcString) (h' : Heap) (hctx : Ctx (s.handles.eraseIdx i) a' h') :
    Good ⟨h', s.handles.set i a'⟩ := by
  obtain ⟨hwf', hoth, hrc⟩ := hctx
  constructor
  · intro x hx
    rcases mem_set_subset s.handles i a' x hx with he | he
    · subst he; exact hwf'
    · exact hoth x he
  · intro b blk hb
    have h1 := refs_set s.handles i a' default b hi
    have h2 := refs_eraseIdx s.handles i default b hi
    have h3 := hrc b blk hb
    by_cases hb1 : (s.handles.getD i default).ptr = b
    · rw [if_pos hb1] at h1 h2
      by_cases hb2 : a'.ptr = b
      · rw [if_pos hb2] at h1 h3
        show blk.ref_count = refs (s.handles.set i a') b
        omega
      · rw [if_neg hb2] at h1 h3
        show blk.ref_count = refs (s.handles.set i a') b
        omega
    · rw [if_neg hb1] at h1 h2
      by_cases hb2 : a'.ptr = b
      · rw [if_pos hb2] at h1 h3
        show blk.ref_count = refs (s.handles.set i a') b
        omega
      · rw [if_neg hb2] at h1 h3
        show blk.ref_count = refs (s.handles.set i a') b
        omega

theorem good_construct (s : SysState) (t : List Char) (additional : Nat) (hg : Good s) :
    Good (applyConstruct s t additional) := by
  obtain ⟨hwf, hrc⟩ := hg
  obtain ⟨hn_len, hn_ptr, hn_getf, hn_getne, hn_length⟩ :=
    new_spec (utf8Encode t) additional s.heap
  have hlt : ∀ x ∈ s.handles, x.ptr < s.heap.blocks.length := by
    intro x hx
    exact HandleWF.ptr_lt s.heap x (hwf x hx)
  constructor
  · intro x hx
    dsimp only [applyConstruct] at hx ⊢
    rw [List.mem_append] at hx
    rcases hx with hx | hx
    · obtain ⟨blk, hg2, hle, hbl, u, hu⟩ := hwf x hx
      refine ⟨blk, ?_, hle, hbl, u, hu⟩
      show (ArcString.new (utf8Encode t) additional s.heap).2.get x.ptr = some blk
      rw [hn_getne x.ptr (Nat.ne_of_lt (hlt x hx))]
      exact hg2
    · have hx' : x = (ArcString.new (utf8Encode t) additional s.heap).1 := by
        simpa using hx
      subst hx'
      refine ⟨⟨1, (utf8Encode t).length + additional,
        utf8Encode t ++ List.replicate additional 0⟩, ?_, ?_, ?_, ⟨t, ?_⟩⟩
      · rw [hn_ptr]
        exact hn_getf
      · rw [hn_len]
        simp
      · simp
      · rw [hn_len]
        exact List.take_left _ _
  · intro b blk hb
    dsimp only [applyConstruct] at hb ⊢
    by_cases hbf : b = s.heap.blocks.length
    · subst hbf
      show blk.ref_count = refs (s.handles ++ [(ArcString.new (utf8Encode t) additional s.heap).1]) _
      rw [refs_append, refs_eq_zero_of_handles_lt s.handles _ hlt]
      have hb' : blk = ⟨1, (utf8Encode t).length + additional,
          utf8Encode t ++ List.replicate additional 0⟩ := by
        have := hn_getf
        show blk = _
        rw [this] at hb
        exact ((Option.some.injEq _ _).mp hb).symm
      subst hb'
      show 1 = 0 + refs [(ArcString.new (utf8Encode t) additional s.heap).1] s.heap.blocks.length
      rw [refs]
      rw [if_pos hn_ptr]
      rfl
    · have hget : s.heap.get b = some blk := by
        rw [← hn_getne b hbf]
        exact hb
      have := hrc b blk hget
      show blk.ref_count = refs (s.handles ++ [(ArcString.new (utf8Encode t) additional s.heap).1]) b
      rw [refs_append, refs]
      rw [if_neg (by rw [hn_ptr]; exact fun e => hbf e.symm)]
      rw [refs]
      omega

theorem good_clone (s : SysState) (i : Nat) (hi : i < s.handles.length) (hg : Good s) :
    Good (applyClone s i) := by
  obtain ⟨hwf, hrc⟩ := hg
  obtain ⟨blk, hga, hle, hbl, u, hu⟩ := hwf _ (getD_mem s.handles i default hi)
  have hgb : s.heap.getBlock (s.handles.getD i default).ptr = blk :=
    Heap.getBlock_eq _ _ _ hga
  have haptr : (s.handles.getD i default).ptr < s.heap.blocks.length :=
    Heap.lt_of_get_some _ _ _ hga
  have hclone : (s.handles.getD i default).clone s.heap
      = (⟨(s.handles.getD i default).len, (s.handles.getD i default).ptr⟩,
         s.heap.set (s.handles.getD i default).ptr
           (some { blk with ref_count := blk.ref_count + 1 })) := by
    unfold ArcString.clone
    rw [hgb]
  have hget_self : ((s.handles.getD i default).clone s.heap).2.get
      (s.handles.getD i default).ptr = some { blk with ref_count := blk.ref_count + 1 } := by
    rw [hclone]
    exact Heap.get_set_self _ _ _ haptr
  have hget_ne : ∀ b, b ≠ (s.handles.getD i default).ptr →
      ((s.handles.getD i default).clone s.heap).2.get b = s.heap.get b := by
    intro b hb
    rw [hclone]
    exact Heap.get_set_ne _ _ _ _ (fun e => hb e.symm)
  constructor
  · intro x hx
    dsimp only [applyClone] at hx ⊢
    rw [List.mem_append] at hx
    have hxwf : ∀ y : ArcString, HandleWF s.heap y →
        HandleWF ((s.handles.getD i default).clone s.heap).2 y := by
      intro y hy
      obtain ⟨yblk, hgy, hyle, hybl, v, hv⟩ := hy
      by_cases hyp : y.ptr = (s.handles.getD i default).ptr
      · have hyblk : yblk = blk := by
          rw [hyp] at hgy
          rw [hga] at hgy
          exact ((Option.some.injEq _ _).mp hgy).symm
        subst hyblk
        refine ⟨{ yblk with ref_count := yblk.ref_count + 1 }, ?_, hyle, hybl, v, hv⟩
        rw [hyp]
        exact hget_self
      · exact ⟨yblk, by rw [hget_ne y.ptr hyp]; exact hgy, hyle, hybl, v, hv⟩
    rcases hx with hx | hx
    · exact hxwf x (hwf x hx)
    · have hx' : x = ((s.handles.getD i default).clone s.heap).1 := by simpa using hx
      subst hx'
      exact hxwf _ ⟨blk, hga, hle, hbl, u, hu⟩
  · intro b blk' hb
    dsimp only [applyClone] at hb ⊢
    rw [refs_append, refs]
    have hcptr : ((s.handles.getD i default).clone s.heap).1.ptr
        = (s.handles.getD i default).ptr := by
      rw [hclone]
    by_cases hbp : b = (s.handles.getD i default).ptr
    · rw [hbp] at hb ⊢
      rw [hget_self] at hb
      have hblk' : blk' = { blk with ref_count := blk.ref_count + 1 } :=
        ((Option.some.injEq _ _).mp hb).symm
      subst hblk'
      rw [if_pos hcptr]
      have hmem : 1 ≤ refs s.handles (s.handles.getD i default).ptr :=
        (refs_pos_iff _ _).mpr
          ⟨s.handles.getD i default, getD_mem s.handles i default hi, rfl⟩
      have hrca := hrc _ blk hga
      show blk.ref_count + 1
        = refs s.handles (s.handles.getD i default).ptr
          + (1 + refs [] (s.handles.getD i default).ptr)
      rw [refs]
      omega
    · rw [hget_ne b hbp] at hb
      have := hrc b blk' hb
      rw [if_neg (by rw [hcptr]; exact fun e => hbp e.symm), refs]
      omega

theorem good_drop (s : SysState) (i : Nat) (hi : i < s.handles.length) (hg : Good s) :
    Good (applyDrop s i) := by
  obtain ⟨hwf, hrc⟩ := hg
  obtain ⟨blk, hga, hle, hbl, u, hu⟩ := hwf _ (getD_mem s.handles i default hi)
  have haptr : (s.handles.getD i default).ptr < s.heap.blocks.length :=
    Heap.lt_of_get_some _ _ _ hga
  have hrca : blk.ref_count = refs s.handles (s.handles.getD i default).ptr :=
    hrc _ blk hga
  have hrefs_pos : 1 ≤ refs s.handles (s.handles.getD i default).ptr :=
    (refs_pos_iff _ _).mpr ⟨s.handles.getD i default, getD_mem s.handles i default hi, rfl⟩
  have herase := refs_eraseIdx s.handles i default (s.handles.getD i default).ptr hi
  rw [if_pos rfl] at herase
  have hdrop : (s.handles.getD i default).drop s.heap
      = (if blk.ref_count ≠ 1 then
          s.heap.set (s.handles.getD i default).ptr
            (some { blk with ref_count := blk.ref_count - 1 })
        else s.heap.set (s.handles.getD i default).ptr none) := by
    unfold ArcString.drop
    rw [hga]
  by_cases hone : blk.ref_count = 1
  · -- last reference: the block is deallocated
    have hdrop' : (s.handles.getD i default).drop s.heap
        = s.heap.set (s.handles.getD i default).ptr none := by
      rw [hdrop, if_neg (by omega)]
    have hrefs_one : refs s.handles (s.handles.getD i default).ptr = 1 := by omega
    have hrefs_erase : refs (s.handles.eraseIdx i) (s.handles.getD i default).ptr = 0 := by
      omega
    constructor
    · intro x hx
      dsimp only [applyDrop] at hx ⊢
      have hx' : x ∈ s.handles := List.mem_of_mem_eraseIdx hx
      obtain ⟨xblk, hgx, hxle, hxbl, v, hv⟩ := hwf x hx'
      have hxp : x.ptr ≠ (s.handles.getD i default).ptr := by
        intro he
        have : 0 < refs (s.handles.eraseIdx i) (s.handles.getD i default).ptr :=
          (refs_pos_iff _ _).mpr ⟨x, hx, he⟩
        omega
      refine ⟨xblk, ?_, hxle, hxbl, v, hv⟩
      show ((s.handles.getD i default).drop s.heap).get x.ptr = some xblk
      rw [hdrop', Heap.get_set_ne _ _ _ _ (fun e => hxp e.symm)]
      exact hgx
    · intro b blk' hb
      dsimp only [applyDrop] at hb ⊢
      show blk'.ref_count = refs (s.handles.eraseIdx i) b
      by_cases hbp : b = (s.handles.getD i default).ptr
      · subst hbp
        rw [hdrop', Heap.get_set_self _ _ _ haptr] at hb
        exact Option.noConfusion hb
      · rw [hdrop', Heap.get_set_ne _ _ _ _ (fun e => hbp e.symm)] at hb
        have := hrc b blk' hb
        have herase2 := refs_eraseIdx s.handles i default b hi
        rw [if_neg (fun e => hbp e.symm)] at herase2
        omega
  · -- other references remain: only the decrement is visible
    have hdrop' : (s.handles.getD i default).drop s.heap
        = s.heap.set (s.handles.getD i default).ptr
            (some { blk with ref_count := blk.ref_count - 1 }) := by
      rw [hdrop, if_pos hone]
    constructor
    · intro x hx
      dsimp only [applyDrop] at hx ⊢
      have hx' : x ∈ s.handles := List.mem_of_mem_eraseIdx hx
      obtain ⟨xblk, hgx, hxle, hxbl, v, hv⟩ := hwf x hx'
      by_cases hxp : x.ptr = (s.handles.getD i default).ptr
      · have hxblk : xblk = blk := by
          rw [hxp] at hgx
          rw [hga] at hgx
          exact ((Option.some.injEq _ _).mp hgx).symm
        subst hxblk
        refine ⟨{ xblk with ref_count := xblk.ref_count - 1 }, ?_, hxle, hxbl, v, hv⟩
        show ((s.handles.getD i default).drop s.heap).get x.ptr = _
        rw [hdrop', hxp]
        exact Heap.get_set_self _ _ _ haptr
      · refine ⟨xblk, ?_, hxle, hxbl, v, hv⟩
        show ((s.handles.getD i default).drop s.heap).get x.ptr = some xblk
        rw [hdrop', Heap.get_set_ne _ _ _ _ (fun e => hxp e.symm)]
        exact hgx
    · intro b blk' hb
      dsimp only [applyDrop] at hb ⊢
      show blk'.ref_count = refs (s.handles.eraseIdx i) b
      by_cases hbp : b = (s.handles.getD i default).ptr
      · subst hbp
        rw [hdrop', Heap.get_set_self _ _ _ haptr] at hb
        have : blk' = { blk with ref_count := blk.ref_count - 1 } :=
          ((Option.some.injEq _ _).mp hb).symm
        subst this
        show blk.ref_count - 1 = _
        omega
      · rw [hdrop', Heap.get_set_ne _ _ _ _ (fun e => hbp e.symm)] at hb
        have := hrc b blk' hb
        have herase2 := refs_eraseIdx s.handles i default b hi
        rw [if_neg (fun e => hbp e.symm)] at herase2
        omega

theorem good_step (s s' : SysState) (hg : Good s) (hs : Step s s') : Good s' := by
  cases hs with
  | construct t additional => exact good_construct s t additional hg
  | clone i hi => exact good_clone s i hi hg
  | dropHandle i hi => exact good_drop s i hi hg
  | push i ch hi =>
    obtain ⟨hctx, _, _, _, _⟩ :=
      pushCtx (s.handles.eraseIdx i) (s.handles.getD i default) s.heap ch
        (good_to_ctx s hg i hi)
    exact good_set s i hi _ _ hctx
  | pushStr i t hi =>
    obtain ⟨hctx, _, _, _, _⟩ :=
      push_strCtx (s.handles.eraseIdx i) (s.handles.getD i default) s.heap t
        (good_to_ctx s hg i hi)
    exact good_set s i hi _ _ hctx
  | pop i hi =>
    obtain ⟨hctx, hheap⟩ :=
      popCtx (s.handles.eraseIdx i) (s.handles.getD i default) s.heap
        (good_to_ctx s hg i hi)
    have := good_set s i hi _ _ hctx
    show Good ⟨((s.handles.getD i default).pop s.heap).2.2, _⟩
    rw [hheap]
    exact this
  | reserve i additional hi =>
    obtain ⟨hctx, _, _, _, _, _⟩ :=
      reserveCtx (s.handles.eraseIdx i) (s.handles.getD i default) s.heap additional
        (good_to_ctx s hg i hi)
    exact good_set s i hi _ _ hctx
  | extendChars i lb cs hi =>
    obtain ⟨hctx, _, _⟩ :=
      extendCharsCtx (s.handles.eraseIdx i) (s.handles.getD i default) s.heap lb cs
        (good_to_ctx s hg i hi)
    exact good_set s i hi _ _ hctx
  | extendStrs i ss hi =>
    obtain ⟨hctx, _, _⟩ :=
      extendStrsCtx (s.handles.eraseIdx i) (s.handles.getD i default) s.heap ss
        (good_to_ctx s hg i hi)
    exact good_set s i hi _ _ hctx

theorem reachable_good (s : SysState) (hr : Reachable s) : Good s := by
  induction hr with
  | refl => exact good_init
  | tail _ hstep ih => exact good_step _ _ ih hstep

/-! ## Small facts used by the claim theorems -/

theorem drop_get_ne (a : ArcString) (hp : Heap) (b : Nat) (hb : b ≠ a.ptr) :
    (ArcString.drop a hp).get b = hp.get b := by
  unfold ArcString.drop
  cases hg : hp.get a.ptr with
  | none => rfl
  | some blk =>
    show (if blk.ref_count ≠ 1 then
        hp.set a.ptr (some { blk with ref_count := blk.ref_count - 1 })
      else hp.set a.ptr none).get b = hp.get b
    by_cases h1 : blk.ref_count ≠ 1
    · rw [if_pos h1]
      exact Heap.get_set_ne _ _ _ _ (fun e => hb e.symm)
    · rw [if_neg h1]
      exact Heap.get_set_ne _ _ _ _ (fun e => hb e.symm)

theorem pop_heap (a : ArcString) (h : Heap) : (a.pop h).2.2 = h := by
  unfold ArcString.pop
  split <;> rfl

/-! ## Concrete fixtures for the witnesses

A five-byte block holding the text `hi` with three bytes of reserve space,
once with a single referent and once with two aliasing handles. -/

def wBlk : ArcStringInner := ⟨1, 5, [104, 105, 0, 0, 0]⟩

def wHeap : Heap := ⟨[some wBlk]⟩

def wHandle : ArcString := ⟨2, 0⟩

def wBlk2 : ArcStringInner := ⟨2, 5, [104, 105, 0, 0, 0]⟩

def wHeap2 : Heap := ⟨[some wBlk2]⟩

theorem wHandleWF : HandleWF wHeap wHandle :=
  ⟨wBlk, rfl, by decide, by decide, ⟨['h', 'i'], by decide⟩⟩

theorem wCtx : Ctx [] wHandle wHeap := by
  refine ⟨wHandleWF, ?_, ?_⟩
  · intro o ho
    cases ho
  intro b blk hb
  cases b with
  | zero =>
    have hget : wHeap.get 0 = some wBlk := rfl
    rw [hget] at hb
    have : blk = wBlk := ((Option.some.injEq _ _).mp hb).symm
    subst this
    decide
  | succ n =>
    have hnone : wHeap.get (n + 1) = none := by
      apply Heap.get_none_of_le
      show 1 ≤ n + 1
      omega
    rw [hnone] at hb
    exact Option.noConfusion hb

theorem wCtx2 : Ctx [wHandle] wHandle wHeap2 := by
  have hwf : HandleWF wHeap2 wHandle :=
    ⟨wBlk2, rfl, by decide, by decide, ⟨['h', 'i'], by decide⟩⟩
  refine ⟨hwf, ?_, ?_⟩
  · intro o ho
    have : o = wHandle := by simpa using ho
    subst this
    exact hwf
  · intro b blk hb
    cases b with
    | zero =>
      have hget : wHeap2.get 0 = some wBlk2 := rfl
      rw [hget] at hb
      have : blk = wBlk2 := ((Option.some.injEq _ _).mp hb).symm
      subst this
      decide
    | succ n =>
      have hnone : wHeap2.get (n + 1) = none := by
        apply Heap.get_none_of_le
        show 1 ≤ n + 1
        omega
      rw [hnone] at hb
      exact Option.noConfusion hb

/-! ## The claims -/

/-- C2: Construction round-trip.  For every text `T` (a character list whose
byte content is its UTF-8 encoding) and every extra capacity `A ≥ 0`,
`ArcString::new(T, A)` yields a handle whose `len` equals the byte length of
`T`, whose capacity equals `len(T) + A`, and whose committed bytes — and
their decoding — read back exactly `T`. -/
theorem construct_roundtrip (t : List Char) (additional : Nat) (h : Heap) :
    (ArcString.new (utf8Encode t) additional h).1.len = (utf8Encode t).length ∧
    (ArcString.new (utf8Encode t) additional h).1.capacity
        (ArcString.new (utf8Encode t) additional h).2
      = (utf8Encode t).length + additional ∧
    (ArcString.new (utf8Encode t) additional h).1.as_slice
        (ArcString.new (utf8Encode t) additional h).2 = utf8Encode t ∧
    (ArcString.new (utf8Encode t) additional h).1.as_str
        (ArcString.new (utf8Encode t) additional h).2 = t := by
  obtain ⟨hn_len, hn_ptr, hn_getf, hn_getne, hn_length⟩ :=
    new_spec (utf8Encode t) additional h
  have hget : (ArcString.new (utf8Encode t) additional h).2.get
      (ArcString.new (utf8Encode t) additional h).1.ptr
      = some ⟨1, (utf8Encode t).length + additional,
          utf8Encode t ++ List.replicate additional 0⟩ := by
    rw [hn_ptr]
    exact hn_getf
  have hslice : (ArcString.new (utf8Encode t) additional h).1.as_slice
      (ArcString.new (utf8Encode t) additional h).2 = utf8Encode t := by
    rw [HandleWF.as_slice_eq _ _ _ hget, hn_len]
    exact List.take_left _ _
  refine ⟨hn_len, ?_, hslice, ?_⟩
  · unfold ArcString.capacity
    rw [Heap.getBlock_eq _ _ _ hget]
  · unfold ArcString.as_str
    rw [hslice, utf8Decode_encode]
    rfl

/-- C4: Reserve algorithm.  When the free space `capacity - len` already
covers `additional`, `reserve` leaves the handle and the heap entirely
unchanged.  Otherwise the resulting handle keeps its length and committed
content and its capacity becomes `max (3 * capacity / 2) (capacity +
additional)` — the source's integer computation of the amortized 1.5×
growth target versus the exact requirement. -/
theorem reserve_spec (a : ArcString) (h : Heap) (additional : Nat) (blk : ArcStringInner)
    (hget : h.get a.ptr = some blk) (hle : a.len ≤ blk.capacity)
    (hbl : blk.str_buffer.length = blk.capacity) :
    (additional ≤ a.capacity h - a.len → a.reserve additional h = (a, h)) ∧
    (a.capacity h - a.len < additional →
      (a.reserve additional h).1.capacity (a.reserve additional h).2
        = max (3 * a.capacity h / 2) (a.capacity h + additional) ∧
      (a.reserve additional h).1.len = a.len ∧
      (a.reserve additional h).1.as_slice (a.reserve additional h).2 = a.as_slice h) := by
  have hcap : a.capacity h = blk.capacity := by
    unfold ArcString.capacity
    rw [Heap.getBlock_eq _ _ _ hget]
  constructor
  · intro hno
    unfold ArcString.reserve
    rw [if_neg (by omega)]
  · intro hgrow
    have hgrow' : additional > a.capacity h - a.len := hgrow
    have heq : a.reserve additional h =
        replaceOp a (a.as_slice h)
          (max (3 * a.capacity h / 2) (a.capacity h + additional) - a.len) h := by
      unfold ArcString.reserve replaceOp
      rw [if_pos hgrow']
    obtain ⟨hn_len, hn_ptr, hn_getf, hn_getne, hn_length⟩ :=
      new_spec (a.as_slice h)
        (max (3 * a.capacity h / 2) (a.capacity h + additional) - a.len) h
    have haptr : a.ptr < h.blocks.length := Heap.lt_of_get_some _ _ _ hget
    have hanef : a.ptr ≠ h.blocks.length := Nat.ne_of_lt haptr
    have hslice_len : (a.as_slice h).length = a.len := by
      rw [HandleWF.as_slice_eq h a blk hget]
      simp
      omega
    have hget2 : (replaceOp a (a.as_slice h)
        (max (3 * a.capacity h / 2) (a.capacity h + additional) - a.len) h).2.get
          h.blocks.length
        = some ⟨1, (a.as_slice h).length
            + (max (3 * a.capacity h / 2) (a.capacity h + additional) - a.len),
          a.as_slice h ++ List.replicate
            (max (3 * a.capacity h / 2) (a.capacity h + additional) - a.len) 0⟩ := by
      show (ArcString.drop a (ArcString.new (a.as_slice h)
          (max (3 * a.capacity h / 2) (a.capacity h + additional) - a.len) h).2).get
          h.blocks.length = _
      rw [drop_get_ne a _ _ (fun e => hanef e.symm)]
      exact hn_getf
    have hget2' : (replaceOp a (a.as_slice h)
        (max (3 * a.capacity h / 2) (a.capacity h + additional) - a.len) h).2.get
          (replaceOp a (a.as_slice h)
            (max (3 * a.capacity h / 2) (a.capacity h + additional) - a.len) h).1.ptr
        = some ⟨1, (a.as_slice h).length
            + (max (3 * a.capacity h / 2) (a.capacity h + additional) - a.len),
          a.as_slice h ++ List.replicate
            (max (3 * a.capacity h / 2) (a.capacity h + additional) - a.len) 0⟩ := by
      have hp : (replaceOp a (a.as_slice h)
          (max (3 * a.capacity h / 2) (a.capacity h + additional) - a.len) h).1.ptr
          = h.blocks.length := hn_ptr
      rw [hp]
      exact hget2
    rw [heq]
    refine ⟨?_, ?_, ?_⟩
    · rw [capacity_eq _ _ _ hget2']
      show (a.as_slice h).length
          + (max (3 * a.capacity h / 2) (a.capacity h + additional) - a.len) = _
      rw [hslice_len]
      rw [hcap] at *
      omega
    · show (ArcString.new (a.as_slice h)
        (max (3 * a.capacity h / 2) (a.capacity h + additional) - a.len) h).1.len = a.len
      rw [hn_len, hslice_len]
    · rw [HandleWF.as_slice_eq _ _ _ hget2']
      show (a.as_slice h ++ List.replicate
          (max (3 * a.capacity h / 2) (a.capacity h + additional) - a.len) 0).take
        (ArcString.new (a.as_slice h)
          (max (3 * a.capacity h / 2) (a.capacity h + additional) - a.len) h).1.len
        = a.as_slice h
      rw [hn_len]
      exact List.take_left _ _

/-- C4 witness: a concrete instance of `reserve_spec` on a five-byte block
holding `hi`: reserving 2 more bytes is a no-op, reserving 9 grows the
capacity to `max 7 14 = 14`. -/
theorem reserve_spec_witness :
    (2 ≤ wHandle.capacity wHeap - wHandle.len →
      wHandle.reserve 2 wHeap = (wHandle, wHeap)) ∧
    (wHandle.capacity wHeap - wHandle.len < 9 →
      (wHandle.reserve 9 wHeap).1.capacity (wHandle.reserve 9 wHeap).2
        = max (3 * wHandle.capacity wHeap / 2) (wHandle.capacity wHeap + 9) ∧
      (wHandle.reserve 9 wHeap).1.len = wHandle.len ∧
      (wHandle.reserve 9 wHeap).1.as_slice (wHandle.reserve 9 wHeap).2
        = wHandle.as_slice wHeap) :=
  ⟨(reserve_spec wHandle wHeap 2 wBlk rfl (by decide) (by decide)).1,
   (reserve_spec wHandle wHeap 9 wBlk rfl (by decide) (by decide)).2⟩

/-- C5: Append postconditions.  Relative to any aliasing context, appending
a character yields the old committed content followed by the character's
UTF-8 encoding and advances `len` by its encoded length; appending a string
appends its bytes and advances `len` by its byte length; in both cases the
prefix `[0, len)` of the handle's view is unchanged. -/
theorem append_postconditions (others : List ArcString) (a : ArcString) (h : Heap)
    (ch : Char) (v : List Char) (hctx : Ctx others a h) :
    ((a.push ch h).1.len = a.len + utf8Len ch ∧
     (a.push ch h).1.as_slice (a.push ch h).2 = a.as_slice h ++ utf8EncodeChar ch ∧
     ((a.push ch h).1.as_slice (a.push ch h).2).take a.len = a.as_slice h) ∧
    ((a.push_str (utf8Encode v) h).1.len = a.len + (utf8Encode v).length ∧
     (a.push_str (utf8Encode v) h).1.as_slice (a.push_str (utf8Encode v) h).2
       = a.as_slice h ++ utf8Encode v ∧
     ((a.push_str (utf8Encode v) h).1.as_slice (a.push_str (utf8Encode v) h).2).take a.len
       = a.as_slice h) := by
  have hlen := HandleWF.length_as_slice h a hctx.1
  obtain ⟨_, Plen, Pslice, _, _⟩ := pushCtx others a h ch hctx
  obtain ⟨_, Slen, Sslice, _, _⟩ := push_strCtx others a h v hctx
  refine ⟨⟨Plen, Pslice, ?_⟩, Slen, Sslice, ?_⟩
  · rw [Pslice]
    exact List.take_left' hlen
  · rw [Sslice]
    exact List.take_left' hlen

/-- C5 witness: pushing `Z` and pushing `ok` onto a sole handle reading
`hi`. -/
theorem append_postconditions_witness :
    ((wHandle.push 'Z' wHeap).1.len = wHandle.len + utf8Len 'Z' ∧
     (wHandle.push 'Z' wHeap).1.as_slice (wHandle.push 'Z' wHeap).2
       = wHandle.as_slice wHeap ++ utf8EncodeChar 'Z' ∧
     ((wHandle.push 'Z' wHeap).1.as_slice (wHandle.push 'Z' wHeap).2).take wHandle.len
       = wHandle.as_slice wHeap) ∧
    ((wHandle.push_str (utf8Encode ['o', 'k']) wHeap).1.len
       = wHandle.len + (utf8Encode ['o', 'k']).length ∧
     (wHandle.push_str (utf8Encode ['o', 'k']) wHeap).1.as_slice
         (wHandle.push_str (utf8Encode ['o', 'k']) wHeap).2
       = wHandle.as_slice wHeap ++ utf8Encode ['o', 'k'] ∧
     ((wHandle.push_str (utf8Encode ['o', 'k']) wHeap).1.as_slice
         (wHandle.push_str (utf8Encode ['o', 'k']) wHeap).2).take wHandle.len
       = wHandle.as_slice wHeap) :=
  append_postconditions [] wHandle wHeap 'Z' ['o', 'k'] wCtx

/-- C6: Remove-last-character.  `pop` never touches the heap (no write, no
copy-on-write gate — its result returns the heap unchanged by definition).
On empty content it returns `None` and leaves the handle unchanged; on
content ending in character `c` it returns `Some c` and decrements `len` by
exactly `c`'s encoded byte length, keeping the same block pointer. -/
theorem pop_postconditions (a : ArcString) (h : Heap) (hwf : HandleWF h a) :
    (a.pop h).2.2 = h ∧
    (a.as_str h = [] → a.pop h = (none, a, h)) ∧
    (∀ (t : List Char) (c : Char), a.as_str h = t ++ [c] →
      (a.pop h).1 = some c ∧
      (a.pop h).2.1.len = a.len - utf8Len c ∧
      (a.pop h).2.1.ptr = a.ptr) := by
  obtain ⟨hempty, hcat⟩ := pop_spec a h hwf
  refine ⟨pop_heap a h, hempty, ?_⟩
  intro t c hc
  obtain ⟨h1, h2, h3, h4, h5⟩ := hcat t c hc
  exact ⟨h1, by rw [h2], by rw [h2]⟩

/-- C6 witness: popping from a handle reading `hi` returns `i` and shrinks
the length by one. -/
theorem pop_postconditions_witness :
    (wHandle.pop wHeap).2.2 = wHeap ∧
    (wHandle.as_str wHeap = [] → wHandle.pop wHeap = (none, wHandle, wHeap)) ∧
    (∀ (t : List Char) (c : Char), wHandle.as_str wHeap = t ++ [c] →
      (wHandle.pop wHeap).1 = some c ∧
      (wHandle.pop wHeap).2.1.len = wHandle.len - utf8Len c ∧
      (wHandle.pop wHeap).2.1.ptr = wHandle.ptr) :=
  pop_postconditions wHandle wHeap wHandleWF

/-- C7: Clone transparency.  Cloning returns a handle with the same `len`
and block pointer, allocates nothing, copies no bytes (every block's
capacity and buffer are untouched) and only increments the block's
reference count; original and clone read identical content, and after
dropping either one of the two the block is still live and the other
still reads the same content. -/
theorem clone_transparency (a : ArcString) (h : Heap) (blk : ArcStringInner)
    (hget : h.get a.ptr = some blk) (hrc1 : 1 ≤ blk.ref_count) :
    (a.clone h).1.len = a.len ∧
    (a.clone h).1.ptr = a.ptr ∧
    (a.clone h).2.blocks.length = h.blocks.length ∧
    (∀ b, ((a.clone h).2.getBlock b).capacity = (h.getBlock b).capacity ∧
        ((a.clone h).2.getBlock b).str_buffer = (h.getBlock b).str_buffer) ∧
    ((a.clone h).2.getBlock a.ptr).ref_count = blk.ref_count + 1 ∧
    (a.clone h).1.as_slice (a.clone h).2 = a.as_slice h ∧
    a.as_slice (ArcString.drop (a.clone h).1 (a.clone h).2) = a.as_slice h ∧
    ((ArcString.drop (a.clone h).1 (a.clone h).2).get a.ptr).isSome ∧
    a.as_slice (ArcString.drop a (a.clone h).2) = a.as_slice h ∧
    ((ArcString.drop a (a.clone h).2).get a.ptr).isSome := by
  have hgb : h.getBlock a.ptr = blk := Heap.getBlock_eq h a.ptr blk hget
  have haptr : a.ptr < h.blocks.length := Heap.lt_of_get_some h a.ptr blk hget
  have hclone : a.clone h
      = (⟨a.len, a.ptr⟩, h.set a.ptr (some { blk with ref_count := blk.ref_count + 1 })) := by
    unfold ArcString.clone
    rw [hgb]
  have hlen2 : (a.clone h).2.blocks.length = h.blocks.length := by
    rw [hclone]
    exact Heap.length_set h a.ptr _
  have hget_self : (a.clone h).2.get a.ptr
      = some { blk with ref_count := blk.ref_count + 1 } := by
    rw [hclone]
    exact Heap.get_set_self h a.ptr _ haptr
  have hget_ne : ∀ b, b ≠ a.ptr → (a.clone h).2.get b = h.get b := by
    intro b hb
    rw [hclone]
    exact Heap.get_set_ne h a.ptr b _ (fun e => hb e.symm)
  have hptr1 : (a.clone h).1.ptr = a.ptr := by rw [hclone]
  have hlen1 : (a.clone h).1.len = a.len := by rw [hclone]
  have hdrop23 : ArcString.drop (a.clone h).1 (a.clone h).2
      = ArcString.drop a (a.clone h).2 := by
    unfold ArcString.drop
    rw [hptr1]
  have hdrop : ArcString.drop a (a.clone h).2
      = (a.clone h).2.set a.ptr (some { blk with ref_count := blk.ref_count + 1 - 1 }) := by
    unfold ArcString.drop
    rw [hget_self]
    show (if ({ blk with ref_count := blk.ref_count + 1 } : ArcStringInner).ref_count ≠ 1 then
        (a.clone h).2.set a.ptr (some { blk with ref_count := blk.ref_count + 1 - 1 })
      else (a.clone h).2.set a.ptr none) = _
    rw [if_pos (by show blk.ref_count + 1 ≠ 1; omega)]
  have hdrop_get : (ArcString.drop a (a.clone h).2).get a.ptr
      = some { blk with ref_count := blk.ref_count + 1 - 1 } := by
    rw [hdrop]
    apply Heap.get_set_self
    rw [hlen2]
    exact haptr
  have hdrop_slice : a.as_slice (ArcString.drop a (a.clone h).2) = a.as_slice h := by
    rw [HandleWF.as_slice_eq _ a _ hdrop_get, HandleWF.as_slice_eq h a blk hget]
  refine ⟨hlen1, hptr1, hlen2, ?_, ?_, ?_, ?_, ?_, hdrop_slice, ?_⟩
  · intro b
    by_cases hb : b = a.ptr
    · rw [hb, Heap.getBlock_eq _ a.ptr _ hget_self, hgb]
      exact ⟨rfl, rfl⟩
    · unfold Heap.getBlock
      rw [hget_ne b hb]
      exact ⟨rfl, rfl⟩
  · rw [Heap.getBlock_eq _ a.ptr _ hget_self]
  · have hgc : (a.clone h).2.get (a.clone h).1.ptr
        = some { blk with ref_count := blk.ref_count + 1 } := by
      rw [hptr1]
      exact hget_self
    rw [HandleWF.as_slice_eq _ _ _ hgc, HandleWF.as_slice_eq h a blk hget, hlen1]
  · rw [hdrop23]
    exact hdrop_slice
  · rw [hdrop23, hdrop_get]
    rfl
  · rw [hdrop_get]
    rfl

/-- C7 witness: cloning the sole handle of the `hi` block. -/
theorem clone_transparency_witness :
    (wHandle.clone wHeap).1.len = wHandle.len ∧
    (wHandle.clone wHeap).1.ptr = wHandle.ptr ∧
    (wHandle.clone wHeap).2.blocks.length = wHeap.blocks.length ∧
    (∀ b, ((wHandle.clone wHeap).2.getBlock b).capacity = (wHeap.getBlock b).capacity ∧
        ((wHandle.clone wHeap).2.getBlock b).str_buffer = (wHeap.getBlock b).str_buffer) ∧
    ((wHandle.clone wHeap).2.getBlock wHandle.ptr).ref_count = wBlk.ref_count + 1 ∧
    (wHandle.clone wHeap).1.as_slice (wHandle.clone wHeap).2 = wHandle.as_slice wHeap ∧
    wHandle.as_slice (ArcString.drop (wHandle.clone wHeap).1 (wHandle.clone wHeap).2)
      = wHandle.as_slice wHeap ∧
    ((ArcString.drop (wHandle.clone wHeap).1 (wHandle.clone wHeap).2).get wHandle.ptr).isSome ∧
    wHandle.as_slice (ArcString.drop wHandle (wHandle.clone wHeap).2)
      = wHandle.as_slice wHeap ∧
    ((ArcString.drop wHandle (wHandle.clone wHeap).2).get wHandle.ptr).isSome :=
  clone_transparency wHandle wHeap wBlk rfl (by decide)

/-- C1: Copy-on-write isolation.  Mutating a handle (append character or
append string) never changes the committed content read by any other
handle of the same context — in particular a clone aliasing the same
block; and the gate itself either proves the handle is the sole referent
(count 1, handle and heap returned unchanged) or switches the handle to a
freshly allocated block distinct from every other handle's block. -/
theorem cow_isolation (others : List ArcString) (a1 a2 : ArcString) (h : Heap)
    (ch : Char) (v : List Char) (hctx : Ctx others a1 h) (ha2 : a2 ∈ others) :
    a2.as_slice (a1.push ch h).2 = a2.as_slice h ∧
    a2.as_slice (a1.push_str (utf8Encode v) h).2 = a2.as_slice h ∧
    ((h.getBlock a1.ptr).ref_count = 1 → a1.makeMutSlice h = (a1, h)) ∧
    ((h.getBlock a1.ptr).ref_count ≠ 1 →
      (a1.makeMutSlice h).1.ptr = h.blocks.length ∧
      ∀ o ∈ others, (a1.makeMutSlice h).1.ptr ≠ o.ptr) := by
  obtain ⟨_, _, _, Pframe, _⟩ := pushCtx others a1 h ch hctx
  obtain ⟨_, _, _, Sframe, _⟩ := push_strCtx others a1 h v hctx
  refine ⟨Pframe a2 ha2, Sframe a2 ha2, ?_, ?_⟩
  · intro h1
    unfold ArcString.makeMutSlice
    rw [if_pos h1]
  · intro hne
    have heq : a1.makeMutSlice h
        = replaceOp a1 (a1.as_slice h) (a1.capacity h - a1.len) h := by
      unfold ArcString.makeMutSlice replaceOp
      rw [if_neg hne]
    have hptr : (a1.makeMutSlice h).1.ptr = h.blocks.length := by
      rw [heq]
      exact (new_spec (a1.as_slice h) (a1.capacity h - a1.len) h).2.1
    refine ⟨hptr, ?_⟩
    intro o ho
    rw [hptr]
    have := HandleWF.ptr_lt h o (hctx.2.1 o ho)
    omega

/-- C1 witness: two handles aliasing the `hi` block with count 2; pushing
onto one leaves the other's view unchanged, and the gate splits. -/
theorem cow_isolation_witness :
    wHandle.as_slice (wHandle.push 'Z' wHeap2).2 = wHandle.as_slice wHeap2 ∧
    wHandle.as_slice (wHandle.push_str (utf8Encode ['o', 'k']) wHeap2).2
      = wHandle.as_slice wHeap2 ∧
    ((wHeap2.getBlock wHandle.ptr).ref_count = 1 →
      wHandle.makeMutSlice wHeap2 = (wHandle, wHeap2)) ∧
    ((wHeap2.getBlock wHandle.ptr).ref_count ≠ 1 →
      (wHandle.makeMutSlice wHeap2).1.ptr = wHeap2.blocks.length ∧
      ∀ o ∈ [wHandle], (wHandle.makeMutSlice wHeap2).1.ptr ≠ o.ptr) :=
  cow_isolation [wHandle] wHandle wHandle wHeap2 'Z' ['o', 'k'] wCtx2
    (List.mem_singleton.mpr rfl)

/-- C3: Handle well-formedness invariant.  In every state reachable from
the empty system through the public safe operations (construct, clone,
drop, reserve, push, push_str, pop, bulk extend), every live handle has
`len ≤ capacity` of its block and its committed byte range decodes as
UTF-8. -/
theorem handle_wellformed (s : SysState) (hr : Reachable s) (a : ArcString)
    (ha : a ∈ s.handles) :
    a.len ≤ a.capacity s.heap ∧ (utf8Decode (a.as_slice s.heap)).isSome := by
  obtain ⟨hwf, _⟩ := reachable_good s hr
  obtain ⟨blk, hget, hle, hbl, t, ht⟩ := hwf a ha
  constructor
  · rw [capacity_eq a s.heap blk hget]
    exact hle
  · rw [HandleWF.as_slice_eq s.heap a blk hget, ht, utf8Decode_encode]
    rfl

/-- C3 witness: the handle created by constructing `hi` with one byte of
reserve, in the state reached by that single step. -/
theorem handle_wellformed_witness :
    (⟨2, 0⟩ : ArcString).len
      ≤ (⟨2, 0⟩ : ArcString).capacity (applyConstruct SysState.init ['h', 'i'] 1).heap ∧
    (utf8Decode ((⟨2, 0⟩ : ArcString).as_slice
      (applyConstruct SysState.init ['h', 'i'] 1).heap)).isSome :=
  handle_wellformed (applyConstruct SysState.init ['h', 'i'] 1)
    (Relation.ReflTransGen.single (Step.construct SysState.init ['h', 'i'] 1))
    ⟨2, 0⟩ (by decide)

/-- C8: Pop/push inverse.  For a handle whose committed content is the
encoding of `t ++ [c]`, removing the last character and then appending `c`
restores the original committed content and the original length. -/
theorem pop_push_inverse (others : List ArcString) (a : ArcString) (h : Heap)
    (t : List Char) (c : Char) (hctx : Ctx others a h)
    (hcat : a.as_slice h = utf8Encode (t ++ [c])) :
    ((a.pop h).2.1.push c (a.pop h).2.2).1.as_slice
        ((a.pop h).2.1.push c (a.pop h).2.2).2 = a.as_slice h ∧
    ((a.pop h).2.1.push c (a.pop h).2.2).1.len = a.len := by
  have hwf := hctx.1
  have hstr : a.as_str h = t ++ [c] := by
    unfold ArcString.as_str
    rw [hcat, utf8Decode_encode]
    rfl
  obtain ⟨_, hcatspec⟩ := pop_spec a h hwf
  obtain ⟨h1, h2, h3, h4, h5⟩ := hcatspec t c hstr
  obtain ⟨popctx, hheap⟩ := popCtx others a h hctx
  obtain ⟨_, Plen, Pslice, _, _⟩ := pushCtx others ((a.pop h).2.1) h c popctx
  rw [h3]
  have hone : utf8Encode [c] = utf8EncodeChar c := by
    show utf8EncodeChar c ++ [] = _
    rw [List.append_nil]
  constructor
  · rw [Pslice, h4, hcat, utf8Encode_append, hone]
  · rw [Plen, h2]
    show a.len - utf8Len c + utf8Len c = a.len
    omega

/-- C8 witness: popping `i` from `hi` and pushing it back. -/
theorem pop_push_inverse_witness :
    ((wHandle.pop wHeap).2.1.push 'i' (wHandle.pop wHeap).2.2).1.as_slice
        ((wHandle.pop wHeap).2.1.push 'i' (wHandle.pop wHeap).2.2).2
      = wHandle.as_slice wHeap ∧
    ((wHandle.pop wHeap).2.1.push 'i' (wHandle.pop wHeap).2.2).1.len = wHandle.len :=
  pop_push_inverse [] wHandle wHeap ['h'] 'i' wCtx (by decide)

/-- C9: Deallocation exactly at the last drop.  In every reachable state,
every live handle's block is still allocated; the handle is the sole
referent exactly when the block's count is 1; and dropping the handle
deallocates the block exactly when that count is 1 — i.e. when the
`fetch_sub` of the drop observes the 1 → 0 transition. -/
theorem dealloc_at_last_drop (s : SysState) (hr : Reachable s) (i : Nat)
    (hi : i < s.handles.length) :
    ∃ blk, s.heap.get (s.handles.getD i default).ptr = some blk ∧
      (blk.ref_count = 1 ↔ refs s.handles (s.handles.getD i default).ptr = 1) ∧
      ((applyDrop s i).heap.get (s.handles.getD i default).ptr = none
        ↔ blk.ref_count = 1) := by
  obtain ⟨hwf, hrc⟩ := reachable_good s hr
  obtain ⟨blk, hget, _, _, _, _⟩ := hwf _ (getD_mem s.handles i default hi)
  have hrceq := hrc _ blk hget
  have haptr := Heap.lt_of_get_some _ _ _ hget
  have hdrop : (s.handles.getD i default).drop s.heap
      = (if blk.ref_count ≠ 1 then
          s.heap.set (s.handles.getD i default).ptr
            (some { blk with ref_count := blk.ref_count - 1 })
        else s.heap.set (s.handles.getD i default).ptr none) := by
    unfold ArcString.drop
    rw [hget]
  refine ⟨blk, hget, by rw [hrceq], ?_⟩
  show ((s.handles.getD i default).drop s.heap).get (s.handles.getD i default).ptr
    = none ↔ _
  constructor
  · intro hnone
    by_contra hne
    rw [hdrop, if_pos hne, Heap.get_set_self _ _ _ haptr] at hnone
    exact Option.noConfusion hnone
  · intro hone
    rw [hdrop, if_neg (by omega), Heap.get_set_self _ _ _ haptr]

/-- C9 witness: the single handle created by one construct step is the
sole referent (count 1 and one reference), and dropping it deallocates
the block. -/
theorem dealloc_at_last_drop_witness :
    ∃ blk, (applyConstruct SysState.init ['h', 'i'] 0).heap.get
        ((applyConstruct SysState.init ['h', 'i'] 0).handles.getD 0 default).ptr
        = some blk ∧
      (blk.ref_count = 1 ↔ refs (applyConstruct SysState.init ['h', 'i'] 0).handles
        ((applyConstruct SysState.init ['h', 'i'] 0).handles.getD 0 default).ptr = 1) ∧
      ((applyDrop (applyConstruct SysState.init ['h', 'i'] 0) 0).heap.get
          ((applyConstruct SysState.init ['h', 'i'] 0).handles.getD 0 default).ptr = none
        ↔ blk.ref_count = 1) :=
  dealloc_at_last_drop (applyConstruct SysState.init ['h', 'i'] 0)
    (Relation.ReflTransGen.single (Step.construct SysState.init ['h', 'i'] 0))
    0 (by decide)

/-- C10: the claim is contradicted by the code.  `ArcString::reserve`
carries `debug_assert!(additional > 0)`, and `push` always passes the
positive `ch.len_utf8()` — but `push_str` passes `str_len = s.len()`,
which is 0 when `s` is the empty string (and `Extend<char>` passes an
iterator lower bound that is 0 for an empty iterator), so the assertion
fails on `push_str("")` in a debug build. -/
theorem pushstr_empty_violates_reserve_assert :
    ArcString.pushStrReserveArg (utf8Encode []) = 0 ∧
    ¬ ArcString.reserveDebugAssert (ArcString.pushStrReserveArg (utf8Encode [])) ∧
    (∀ ch : Char, ArcString.reserveDebugAssert (utf8Len ch)) := by
  refine ⟨rfl, by decide, ?_⟩
  intro ch
  exact utf8Len_pos ch

end ArcModel
